import Mathlib

/-!
Verification of the rudder-server warehouse upload scheduler and the MSSQL /
GCS driver behaviours, shallowly embedded from the Go sources
(`warehouse/router/scheduling.go`, the MSSQL driver tests, and the GCS
filemanager). Times are modelled as minutes: a `Nat` counts minutes since an
arbitrary UTC epoch, so `t % 1440` is the minute-of-day and `t / 1440 * 1440`
is the start of `t`'s UTC day.
-/

namespace RudderServer

/-- Value of a list of decimal digit characters, most significant first. -/
def digitsVal (l : List Char) : Nat :=
  l.foldl (fun a c => a * 10 + (c.toNat - 48)) 0

/-- Strip one leading sign character; `true` means negative. -/
def stripSign (l : List Char) : Bool × List Char :=
  match l with
  | [] => (false, [])
  | c :: ds =>
    if c = '-' then (true, ds)
    else if c = '+' then (false, ds)
    else (false, l)

/-- Modelled from the spec: `timeutil.MinsOfDay` (the `utils/timeutil`
package is not part of the sources under review) converts an "HH:MM" UTC
string to its minute-of-day `hh*60 + mm`; any other shape yields 0. -/
def minsOfDay (s : String) : Nat :=
  match s.data with
  | [h1, h2, ':', m1, m2] =>
    if h1.isDigit && h2.isDigit && m1.isDigit && m2.isDigit then
      ((h1.toNat - 48) * 10 + (h2.toNat - 48)) * 60 +
        ((m1.toNat - 48) * 10 + (m2.toNat - 48))
    else 0
  | _ => 0

/-- Two's-complement 64-bit wraparound: the value of an arbitrary-precision
integer when stored in a Go `int64`, in `[-2^63, 2^63)`. -/
def wrap64 (x : Int) : Int := (x + 2 ^ 63) % 2 ^ 64 - 2 ^ 63

/-- Go's `strconv.Atoi` with the error discarded, as used in
`scheduledTimes`: a string of decimal digits with an optional sign parses to
its value clamped to the signed 64-bit range (`strconv` returns
MaxInt64/MinInt64 together with the discarded range error), anything else
leaves the zero value behind. -/
def goAtoi (s : String) : Int :=
  if !(stripSign s.data).2.isEmpty && (stripSign s.data).2.all Char.isDigit then
    if (stripSign s.data).1 then max (-(digitsVal (stripSign s.data).2 : Int)) (-(2 ^ 63))
    else min ((digitsVal (stripSign s.data).2 : Int)) (2 ^ 63 - 1)
  else 0

/-- The forward loop of `scheduledTimes` (scheduling.go:172-179): starting at
`counter`, collect `start + counter*f` — computed in Go's wrapping `int64`
arithmetic, hence the `wrap64` — while it is `< 1440`, stepping `counter` by
one. The Go loop has no termination guarantee, so the embedding carries
explicit fuel; `none` models non-termination (fuel exhaustion). -/
def fwdLoop (start f : Int) : Nat → Nat → Option (List Int)
  | 0, _ => none
  | fuel + 1, counter =>
    let mins := wrap64 (start + (counter : Int) * f)
    if 1440 ≤ mins then some []
    else
      match fwdLoop start f fuel (counter + 1) with
      | some rest => some (mins :: rest)
      | none => none

/-- The backward loop of `scheduledTimes` (scheduling.go:182-190): collect
`start - counter*f` in wrapping `int64` arithmetic while it is `≥ 0`, in
generation order (the caller reverses it). Fueled exactly like `fwdLoop`. -/
def bwdLoop (start f : Int) : Nat → Nat → Option (List Int)
  | 0, _ => none
  | fuel + 1, counter =>
    let mins := wrap64 (start - (counter : Int) * f)
    if mins < 0 then some []
    else
      match bwdLoop start f fuel (counter + 1) with
      | some rest => some (mins :: rest)
      | none => none

/-- No-overflow reference version of `fwdLoop`, with exact integer
arithmetic; below the wrap threshold (`f ≤ 2^63 - 1440`) it coincides with
`fwdLoop` and carries its characterisation. -/
def fwdLoopRef (start f : Int) : Nat → Nat → Option (List Int)
  | 0, _ => none
  | fuel + 1, counter =>
    let mins := start + (counter : Int) * f
    if 1440 ≤ mins then some []
    else
      match fwdLoopRef start f fuel (counter + 1) with
      | some rest => some (mins :: rest)
      | none => none

/-- No-overflow reference version of `bwdLoop` (see `fwdLoopRef`). -/
def bwdLoopRef (start f : Int) : Nat → Nat → Option (List Int)
  | 0, _ => none
  | fuel + 1, counter =>
    let mins := start - (counter : Int) * f
    if mins < 0 then some []
    else
      match bwdLoopRef start f fuel (counter + 1) with
      | some rest => some (mins :: rest)
      | none => none

/-- `scheduledTimes` (scheduling.go:157-199) on a cache miss, with explicit
fuel for the two unbounded loops: all daily start minutes obtained by walking
forward and backward from `syncStartAt` in steps of `syncFrequency`. -/
def scheduledTimesWithFuel (fuel : Nat) (syncFrequency syncStartAt : String) :
    Option (List Int) :=
  let syncStartAtInMin : Int := (minsOfDay syncStartAt : Int)
  let syncFrequencyInMin : Int := goAtoi syncFrequency
  match fwdLoop syncStartAtInMin syncFrequencyInMin fuel 1 with
  | none => none
  | some fwd =>
    match bwdLoop syncStartAtInMin syncFrequencyInMin fuel 1 with
    | none => none
    | some bwd => some (bwd.reverse ++ syncStartAtInMin :: fwd)

/-- `scheduledTimes` with enough fuel for every terminating execution
(7000 exceeds every possible loop count for a positive frequency); the
default `[]` is only reached on inputs where the Go code loops forever. -/
def scheduledTimes (syncFrequency syncStartAt : String) : List Int :=
  (scheduledTimesWithFuel 7000 syncFrequency syncStartAt).getD []

/-- The global `scheduledTimesCache` (scheduling.go:158-164,194-196) as an
association list keyed by `fmt.Sprintf("%s-%s", f, s)`; returns the updated
cache and the result. -/
def scheduledTimesCached (cache : List (String × List Int))
    (syncFrequency syncStartAt : String) : List (String × List Int) × List Int :=
  let key := syncFrequency ++ "-" ++ syncStartAt
  match cache.lookup key with
  | some cachedTimes => (cache, cachedTimes)
  | none =>
    let times := scheduledTimes syncFrequency syncStartAt
    ((key, times) :: cache, times)

/-- The position loop of `prevScheduledTime` (scheduling.go:134-146): `n` is
the length of the full list, `idx` the index of the current element, `pos`
the accumulator initialised to 0. Breaks with `idx - 1` at the first element
above `currMins`; at the last index a satisfied test stores that index. -/
def findPosGo (currMins : Int) (n : Nat) : List Int → Nat → Int → Int
  | [], _, pos => pos
  | t :: rest, idx, pos =>
    if t ≤ currMins then
      findPosGo currMins n rest (idx + 1) (if idx = n - 1 then (idx : Int) else pos)
    else (idx : Int) - 1

/-- Entry point of the position loop, `pos` starting at 0 as in the Go. -/
def findPos (currMins : Int) (allStartTimes : List Int) : Int :=
  findPosGo currMins allStartTimes.length allStartTimes 0 0

/-- `prevScheduledTime` (scheduling.go:125-153): the closest previous
scheduled instant for `currTime`, in minutes since the epoch.
`timeutil.StartOfDay` is modelled from the spec as truncation to the UTC day. -/
def prevScheduledTime (syncFrequency syncStartAt : String) (currTime : Nat) : Int :=
  let allStartTimes := scheduledTimes syncFrequency syncStartAt
  let currMins : Int := (currTime : Int) % 1440
  let pos := findPos currMins allStartTimes
  if pos < 0 then
    ((currTime : Int) / 1440) * 1440 - 1440 + allStartTimes.getLastD 0
  else
    ((currTime : Int) / 1440) * 1440 + allStartTimes.getD pos.toNat 0

/-- `checkCurrentTimeExistsInExcludeWindow` (scheduling.go:94-120).
`timeutil.GetElapsedMinsInThisDay` is modelled from the spec as the
minute-of-day `currentTime % 1440`. -/
def checkCurrentTimeExistsInExcludeWindow (currentTime : Nat)
    (windowStartTime windowEndTime : String) : Bool :=
  if windowStartTime = "" ∨ windowEndTime = "" then false
  else
    let startTimeMins := minsOfDay windowStartTime
    let endTimeMins := minsOfDay windowEndTime
    let currentTimeMins := currentTime % 1440
    if startTimeMins < currentTimeMins ∧ currentTimeMins < endTimeMins then true
    else if startTimeMins > currentTimeMins ∧ currentTimeMins < endTimeMins ∧
        startTimeMins > endTimeMins then true
    else if startTimeMins < currentTimeMins ∧ currentTimeMins > endTimeMins ∧
        startTimeMins > endTimeMins then true
    else false

/-- The inputs `Router.canCreateUpload` (scheduling.go:31-78) reads: the
global/atomic flags, the trigger-store lookup, the two
`uploadFrequencyExceeded` oracle results (that helper is reached only on
branches the claims exclude), the destination config values, the repository's
`LastCreatedAt`, and the clock. -/
structure SchedulerState where
  startUploadAlways : Bool
  isTriggered : Bool
  warehouseSyncFreqIgnore : Bool
  uploadFrequencyExceededNoFreq : Bool
  uploadFrequencyExceededWithFreq : Bool
  excludeWindowStartTime : String
  excludeWindowEndTime : String
  syncFrequency : String
  syncStartAt : String
  lastUploadCreatedAt : Int
  now : Nat

/-- `Router.canCreateUpload` (scheduling.go:31-78), returning the decision
and the error message (`none` models a nil error). -/
def canCreateUpload (r : SchedulerState) : Bool × Option String :=
  if r.startUploadAlways then (true, none)
  else if r.isTriggered then (true, none)
  else if r.warehouseSyncFreqIgnore then
    if r.uploadFrequencyExceededNoFreq then (true, none)
    else (false, some "ignore sync freq: upload frequency exceeded")
  else if checkCurrentTimeExistsInExcludeWindow r.now r.excludeWindowStartTime
      r.excludeWindowEndTime then
    (false, some "exclude window: current time exists in exclude window")
  else if r.syncFrequency = "" ∨ r.syncStartAt = "" then
    if r.uploadFrequencyExceededWithFreq then (true, none)
    else (false, some "upload frequency exceeded")
  else if r.lastUploadCreatedAt <
      prevScheduledTime r.syncFrequency r.syncStartAt r.now then (true, none)
  else (false, some "before scheduled time")

/-! ### MSSQL driver: ProcessColumnValue

The MSSQL driver implementation is not among the sources under review (only
its unit test `TestMSSQL_ProcessColumnValue` is), so the per-type value
processing is modelled from the spec, §4.6 "Numeric semantics for
`ProcessColumnValue(raw, logicalType)`", with the unit test's expectations
fixing the concrete behaviour. `none` models an error return. -/

/-- Parse an all-digits magnitude within the signed 64-bit range. -/
def parseIntDigits (neg : Bool) (ds : List Char) : Option Int :=
  if !ds.isEmpty && ds.all Char.isDigit then
    let v : Int := if neg then -(digitsVal ds : Int) else (digitsVal ds : Int)
    if -(2 ^ 63) ≤ v ∧ v ≤ 2 ^ 63 - 1 then some v else none
  else none

/-- Modelled from the spec: `int` values are parsed as base-10 signed 64-bit
integers, so anything that is not an optional sign followed by digits — in
particular anything containing a decimal point — is rejected. -/
def goParseInt (s : String) : Option Int :=
  let signed := stripSign s.data
  parseIntDigits signed.1 signed.2

/-- Parse `whole.frac` digit sequences to a rational. -/
def parseFracDigits (whole frac : List Char) : Option Rat :=
  if (!whole.isEmpty || !frac.isEmpty) && whole.all Char.isDigit &&
      frac.all Char.isDigit then
    some ((digitsVal whole : Rat) + (digitsVal frac : Rat) / ((10 : Rat) ^ frac.length))
  else none

/-- Modelled from the spec: `float` values are parsed as decimal numbers
(optional sign, digits, optional fractional part); non-numeric input is
rejected. The numeric value is represented exactly as a rational. -/
def goParseFloat (s : String) : Option Rat :=
  let signed := stripSign s.data
  let ds := signed.2
  let whole := ds.takeWhile (fun c => c != '.')
  let rest := ds.dropWhile (fun c => c != '.')
  let mag : Option Rat :=
    match rest with
    | [] => parseFracDigits whole []
    | _ :: frac => parseFracDigits whole frac
  mag.map (fun q => if signed.1 then -q else q)

/-- ASCII lower-casing of a character. -/
def lowerAscii (c : Char) : Char :=
  if 'A' ≤ c ∧ c ≤ 'Z' then Char.ofNat (c.toNat + 32) else c

/-- ASCII lower-casing of a string. -/
def lowerStr (s : String) : String := String.mk (s.data.map lowerAscii)

/-- Modelled from the spec: `boolean` accepts `true`/`false`
case-insensitively and rejects every other string. -/
def parseBool (s : String) : Option Bool :=
  if lowerStr s = "true" then some true
  else if lowerStr s = "false" then some false
  else none

/-- A parsed RFC 3339 timestamp (components only; the claims only need
well-formed inputs to parse and malformed ones to fail). -/
structure DateTimeValue where
  year : Nat
  month : Nat
  day : Nat
  hour : Nat
  minute : Nat
  second : Nat
deriving DecidableEq

/-- Validity of an RFC 3339 numeric UTC offset or `Z`. -/
def validRFC3339Offset (l : List Char) : Bool :=
  match l with
  | ['Z'] => true
  | [si, h1, h2, ':', m1, m2] =>
    (si = '+' || si = '-') && h1.isDigit && h2.isDigit && m1.isDigit && m2.isDigit
  | _ => false

/-- Validity of the part after seconds: optional fraction then offset. -/
def validRFC3339Tail (l : List Char) : Bool :=
  match l with
  | '.' :: rest =>
    !(rest.takeWhile Char.isDigit).isEmpty &&
      validRFC3339Offset (rest.dropWhile Char.isDigit)
  | _ => validRFC3339Offset l

/-- Modelled from the spec: `datetime` values must parse as RFC 3339
(`YYYY-MM-DDTHH:MM:SS` with optional fraction and `Z` or numeric offset);
everything else is rejected. -/
def parseRFC3339 (s : String) : Option DateTimeValue :=
  match s.data with
  | y1 :: y2 :: y3 :: y4 :: '-' :: mo1 :: mo2 :: '-' :: d1 :: d2 :: 'T' ::
      h1 :: h2 :: ':' :: mi1 :: mi2 :: ':' :: se1 :: se2 :: rest =>
    if [y1, y2, y3, y4, mo1, mo2, d1, d2, h1, h2, mi1, mi2, se1, se2].all Char.isDigit
        && validRFC3339Tail rest then
      let mo := digitsVal [mo1, mo2]
      let d := digitsVal [d1, d2]
      let h := digitsVal [h1, h2]
      let mi := digitsVal [mi1, mi2]
      let se := digitsVal [se1, se2]
      if 1 ≤ mo ∧ mo ≤ 12 ∧ 1 ≤ d ∧ d ≤ 31 ∧ h ≤ 23 ∧ mi ≤ 59 ∧ se ≤ 60 then
        some ⟨digitsVal [y1, y2, y3, y4], mo, d, h, mi, se⟩
      else none
    else none
  | _ => none

/-- UTF-16LE byte sequence of one character (surrogate pair above the BMP). -/
def utf16leChar (c : Char) : List Nat :=
  let n := c.toNat
  if n < 65536 then [n % 256, n / 256]
  else
    let v := n - 65536
    let hi := 55296 + v / 1024
    let lo := 56320 + v % 1024
    [hi % 256, hi / 256, lo % 256, lo / 256]

/-- UTF-16LE byte sequence of a string. -/
def utf16le (s : String) : List Nat := (s.data.map utf16leChar).flatten

/-- The first `n` characters of a string. -/
def strTake (s : String) (n : Nat) : String := String.mk (s.data.take n)

/-- Whether every character of the string is ASCII. -/
def isASCIIStr (s : String) : Bool := s.data.all (fun c => c.toNat < 128)

/-- `strings.Repeat`: the string repeated `n` times. -/
def repeatString (s : String) (n : Nat) : String := String.join (List.replicate n s)

/-- A processed MSSQL column value. -/
inductive ColumnValue where
  | intVal (n : Int)
  | floatVal (q : Rat)
  | boolVal (b : Bool)
  | dateTimeVal (t : DateTimeValue)
  | strVal (s : String)
  | bytesVal (bs : List Nat)
deriving DecidableEq

/-- Modelled from the spec: the MSSQL driver's `ProcessColumnValue(raw,
logicalType)` (the driver source is not under review; spec §4.6 plus the
unit test fix the behaviour). Strings pass through truncated to the MSSQL
`nvarchar` maximum of 512 characters and are re-encoded to UTF-16LE bytes
when they contain non-ASCII characters; `none` models an error. -/
def processColumnValue (value dataType : String) : Option ColumnValue :=
  if dataType = "int" then (goParseInt value).map ColumnValue.intVal
  else if dataType = "float" then (goParseFloat value).map ColumnValue.floatVal
  else if dataType = "boolean" then (parseBool value).map ColumnValue.boolVal
  else if dataType = "datetime" then (parseRFC3339 value).map ColumnValue.dateTimeVal
  else if dataType = "string" then
    let truncated := strTake value 512
    if isASCIIStr truncated then some (ColumnValue.strVal truncated)
    else some (ColumnValue.bytesVal (utf16le truncated))
  else some (ColumnValue.strVal value)

/-! ### MSSQL driver: LoadTable merge semantics

`LoadTable` itself is not among the sources under review (only its
integration test is); the merge is modelled from the spec, §4.6: "bulk-copies
to a staging table, then MERGEs into the destination table by `id`" — INSERT
when no primary-key match, UPDATE otherwise. -/

/-- One row of the integration test's table schema `{id:string,
test_bool:boolean, test_int:int, test_float:float, test_datetime:datetime,
test_string:string, received_at:datetime}`. -/
structure EventRow where
  id : String
  test_bool : Bool
  test_int : Int
  test_float : Rat
  test_datetime : String
  test_string : String
  received_at : String
deriving DecidableEq

/-- The driver's structured LoadTable result. -/
structure LoadTableStat where
  rowsInserted : Int
  rowsUpdated : Int
deriving DecidableEq

/-- Merge one staged row into the table: UPDATE the row with a matching `id`,
or INSERT (append) when there is no match, counting each case. -/
def loadTableStep (acc : List EventRow × LoadTableStat) (r : EventRow) :
    List EventRow × LoadTableStat :=
  if acc.1.any (fun p => p.id == r.id) then
    (acc.1.map (fun p => if p.id == r.id then r else p),
      ⟨acc.2.rowsInserted, acc.2.rowsUpdated + 1⟩)
  else (acc.1 ++ [r], ⟨acc.2.rowsInserted + 1, acc.2.rowsUpdated⟩)

/-- Modelled from the spec: one `LoadTable` run over a load-file range —
merge every staged row into the warehouse table, returning the new table and
the rows-inserted/rows-updated counters. -/
def loadTableRun (table staged : List EventRow) : List EventRow × LoadTableStat :=
  staged.foldl loadTableStep (table, ⟨0, 0⟩)

/-- The 14 distinct-id staged rows used to instantiate the dedup scenario. -/
def sampleStaged : List EventRow :=
  ["r01", "r02", "r03", "r04", "r05", "r06", "r07",
   "r08", "r09", "r10", "r11", "r12", "r13", "r14"].map
    (fun i =>
      { id := i
        test_bool := true
        test_int := 125
        test_float := (125 : Rat) / 100
        test_datetime := "2022-12-15T06:53:49Z"
        test_string := "hello-world"
        received_at := "2022-12-15T06:53:49Z" })

/-! ### GCS file manager -/

/-- UTF-8 byte sequence of one code point (mirrors Go's string bytes). -/
def utf8Char (n : Nat) : List Nat :=
  if n < 128 then [n]
  else if n < 2048 then [192 + n / 64, 128 + n % 64]
  else if n < 65536 then [224 + n / 4096, 128 + n / 64 % 64, 128 + n % 64]
  else [240 + n / 262144, 128 + n / 4096 % 64, 128 + n / 64 % 64, 128 + n % 64]

/-- The bytes of a string, as Go's `len`/slicing sees them. -/
def strBytes (s : String) : List Nat := (s.data.map (fun c => utf8Char c.toNat)).flatten

/-- `GCSManager.GetObjectNameFromLocation` (part_002:154-159): unconditionally
slice the location after `len("https://storage.googleapis.com/" + bucket + "/")`
bytes. Go's `location[len(baseURL):]` panics when the location is shorter
than the base URL; `none` models that panic. -/
def getObjectNameFromLocation (bucket location : String) : Option (List Nat) :=
  let baseURL := strBytes ("https://storage.googleapis.com/" ++ bucket ++ "/")
  let loc := strBytes location
  if baseURL.length ≤ loc.length then some (loc.drop baseURL.length) else none

/-! ## Lemmas about the schedule calculator loops -/

theorem fwdLoopRef_some_spec (start f : Int) :
    ∀ (fuel c : Nat) (l : List Int), fwdLoopRef start f fuel c = some l →
      l = (List.range l.length).map (fun i : Nat => start + ((c : Int) + (i : Int)) * f) ∧
      1440 ≤ start + ((c : Int) + (l.length : Int)) * f ∧
      ∀ i : Nat, i < l.length → start + ((c : Int) + (i : Int)) * f < 1440 := by
  intro fuel
  induction fuel with
  | zero => intro c l h; simp [fwdLoopRef] at h
  | succ fuel ih =>
    intro c l h
    rw [fwdLoopRef] at h
    split at h
    · next hbr =>
      obtain rfl : ([] : List Int) = l := Option.some.inj h
      refine ⟨by simp, by simpa using hbr, by simp⟩
    · next hbr =>
      split at h
      · next rest heq =>
        obtain rfl : _ :: rest = l := Option.some.inj h
        obtain ⟨h1, h2, h3⟩ := ih (c + 1) rest heq
        refine ⟨?_, ?_, ?_⟩
        · have htail : rest =
              List.map ((fun i : Nat => start + ((c : Int) + (i : Int)) * f) ∘ Nat.succ)
                (List.range rest.length) := by
            conv_lhs => rw [h1]
            refine List.map_congr_left fun i _ => ?_
            simp only [Function.comp_apply, Nat.succ_eq_add_one]
            push_cast; ring
          rw [List.length_cons, List.range_succ_eq_map, List.map_cons, List.map_map,
            List.cons.injEq]
          exact ⟨by push_cast; ring, htail⟩
        · simp only [List.length_cons]
          push_cast at h2 ⊢
          ring_nf at h2 ⊢
          linarith
        · intro i hi
          simp only [List.length_cons] at hi
          match i with
          | 0 => simpa using lt_of_not_le hbr
          | j + 1 =>
            have hj := h3 j (by omega)
            push_cast at hj ⊢
            ring_nf at hj ⊢
            linarith
      · exact absurd h (by simp)

theorem bwdLoopRef_some_spec (start f : Int) :
    ∀ (fuel c : Nat) (l : List Int), bwdLoopRef start f fuel c = some l →
      l = (List.range l.length).map (fun i : Nat => start - ((c : Int) + (i : Int)) * f) ∧
      start - ((c : Int) + (l.length : Int)) * f < 0 ∧
      ∀ i : Nat, i < l.length → 0 ≤ start - ((c : Int) + (i : Int)) * f := by
  intro fuel
  induction fuel with
  | zero => intro c l h; simp [bwdLoopRef] at h
  | succ fuel ih =>
    intro c l h
    rw [bwdLoopRef] at h
    split at h
    · next hbr =>
      obtain rfl : ([] : List Int) = l := Option.some.inj h
      refine ⟨by simp, by simpa using hbr, by simp⟩
    · next hbr =>
      split at h
      · next rest heq =>
        obtain rfl : _ :: rest = l := Option.some.inj h
        obtain ⟨h1, h2, h3⟩ := ih (c + 1) rest heq
        refine ⟨?_, ?_, ?_⟩
        · have htail : rest =
              List.map ((fun i : Nat => start - ((c : Int) + (i : Int)) * f) ∘ Nat.succ)
                (List.range rest.length) := by
            conv_lhs => rw [h1]
            refine List.map_congr_left fun i _ => ?_
            simp only [Function.comp_apply, Nat.succ_eq_add_one]
            push_cast; ring
          rw [List.length_cons, List.range_succ_eq_map, List.map_cons, List.map_map,
            List.cons.injEq]
          exact ⟨by push_cast; ring, htail⟩
        · simp only [List.length_cons]
          push_cast at h2 ⊢
          ring_nf at h2 ⊢
          linarith
        · intro i hi
          simp only [List.length_cons] at hi
          match i with
          | 0 => simpa using le_of_not_lt hbr
          | j + 1 =>
            have hj := h3 j (by omega)
            push_cast at hj ⊢
            ring_nf at hj ⊢
            linarith
      · exact absurd h (by simp)

theorem fwdLoopRef_isSome (start f : Int) (hf : 1 ≤ f) :
    ∀ (fuel c : Nat), (1440 - (start + (c : Int) * f)).toNat < fuel →
      (fwdLoopRef start f fuel c).isSome := by
  intro fuel
  induction fuel with
  | zero => intro c h; omega
  | succ fuel ih =>
    intro c h
    rw [fwdLoopRef]
    by_cases hbr : (1440 : Int) ≤ start + (c : Int) * f
    · simp [hbr]
    · have hstep : ((c : Int) + 1) * f = (c : Int) * f + f := by ring
      have hrec : (1440 - (start + ((c + 1 : Nat) : Int) * f)).toNat < fuel := by
        push_cast
        rw [hstep]
        omega
      have := ih (c + 1) hrec
      rw [Option.isSome_iff_exists] at this
      obtain ⟨rest, hrest⟩ := this
      simp [hbr, hrest]

theorem bwdLoopRef_isSome (start f : Int) (hf : 1 ≤ f) :
    ∀ (fuel c : Nat), (start - (c : Int) * f + 1).toNat < fuel →
      (bwdLoopRef start f fuel c).isSome := by
  intro fuel
  induction fuel with
  | zero => intro c h; omega
  | succ fuel ih =>
    intro c h
    rw [bwdLoopRef]
    by_cases hbr : start - (c : Int) * f < 0
    · simp [hbr]
    · have hstep : ((c : Int) + 1) * f = (c : Int) * f + f := by ring
      have hrec : (start - ((c + 1 : Nat) : Int) * f + 1).toNat < fuel := by
        push_cast
        rw [hstep]
        omega
      have := ih (c + 1) hrec
      rw [Option.isSome_iff_exists] at this
      obtain ⟨rest, hrest⟩ := this
      simp [hbr, hrest]

theorem wrap64_eq_self {x : Int} (h1 : -(2 ^ 63) ≤ x) (h2 : x < 2 ^ 63) :
    wrap64 x = x := by
  unfold wrap64
  omega

theorem wrap64_congr {x y : Int} (h : (2 ^ 64 : Int) ∣ (x - y)) :
    wrap64 x = wrap64 y := by
  obtain ⟨u, hu⟩ := h
  unfold wrap64
  omega

theorem goAtoi_bounds (s : String) :
    -(2 ^ 63) ≤ goAtoi s ∧ goAtoi s ≤ 2 ^ 63 - 1 := by
  have hd : (0 : Int) ≤ (digitsVal (stripSign s.data).2 : Int) := Int.natCast_nonneg _
  unfold goAtoi
  split_ifs <;> constructor <;>
    (try simp only [le_max_iff, max_le_iff, le_min_iff, min_le_iff]) <;> omega

/-- Below the wrap threshold the forward loop never overflows, so the wrapped
loop agrees with the exact reference loop. -/
theorem fwdLoop_eq_ref (start f : Int) (h0 : 0 ≤ start)
    (hf : 1 ≤ f) (hb : f ≤ 2 ^ 63 - 1440) :
    ∀ (fuel c : Nat), start + (c : Int) * f < 2 ^ 63 →
      fwdLoop start f fuel c = fwdLoopRef start f fuel c := by
  intro fuel
  induction fuel with
  | zero => intro c _; rfl
  | succ fuel ih =>
    intro c hc
    rw [fwdLoop, fwdLoopRef]
    have hcf : (0 : Int) ≤ (c : Int) * f :=
      mul_nonneg (Int.natCast_nonneg _) (by linarith)
    have hid : wrap64 (start + (c : Int) * f) = start + (c : Int) * f :=
      wrap64_eq_self (by omega) hc
    simp only [hid]
    by_cases hbr : (1440 : Int) ≤ start + (c : Int) * f
    · rw [if_pos hbr, if_pos hbr]
    · have hexp : ((c : Int) + 1) * f = (c : Int) * f + f := by ring
      have hnext : start + ((c + 1 : Nat) : Int) * f < 2 ^ 63 := by
        push_cast
        rw [hexp]
        omega
      rw [if_neg hbr, if_neg hbr, ih (c + 1) hnext]

/-- The backward loop never overflows at all for a positive in-range
frequency: while it runs, the value stays within one step of `[0, start]`. -/
theorem bwdLoop_eq_ref (start f : Int) (h0 : 0 ≤ start) (h1 : start < 1440)
    (hf : 1 ≤ f) (hb : f ≤ 2 ^ 63 - 1440) :
    ∀ (fuel c : Nat), 0 ≤ start - ((c : Int) - 1) * f →
      bwdLoop start f fuel c = bwdLoopRef start f fuel c := by
  intro fuel
  induction fuel with
  | zero => intro c _; rfl
  | succ fuel ih =>
    intro c hc
    rw [bwdLoop, bwdLoopRef]
    have hexp : ((c : Int) - 1) * f = (c : Int) * f - f := by ring
    have hcf : (0 : Int) ≤ (c : Int) * f :=
      mul_nonneg (Int.natCast_nonneg _) (by linarith)
    have hid : wrap64 (start - (c : Int) * f) = start - (c : Int) * f := by
      rw [hexp] at hc
      apply wrap64_eq_self <;> omega
    simp only [hid]
    by_cases hbr : start - (c : Int) * f < 0
    · rw [if_pos hbr, if_pos hbr]
    · have hnext : 0 ≤ start - ((c + 1 : Nat) : Int) * f + f := by
        push_cast
        have : ((c : Int) + 1) * f = (c : Int) * f + f := by ring
        omega
      have hnext' : 0 ≤ start - (((c + 1 : Nat) : Int) - 1) * f := by
        push_cast
        push_cast at hnext
        have : ((c : Int) + 1 - 1) * f = (c : Int) * f := by ring
        rw [this]
        omega
      rw [if_neg hbr, if_neg hbr, ih (c + 1) hnext']

theorem scheduledTimes_eq_of_pos (sf ssa : String) (hf : 1 ≤ goAtoi sf)
    (hb : goAtoi sf ≤ 2 ^ 63 - 1440) (hs : minsOfDay ssa < 1440) :
    ∃ fwd bwd : List Int,
      fwdLoopRef (minsOfDay ssa) (goAtoi sf) 7000 1 = some fwd ∧
      bwdLoopRef (minsOfDay ssa) (goAtoi sf) 7000 1 = some bwd ∧
      scheduledTimes sf ssa = bwd.reverse ++ (minsOfDay ssa : Int) :: fwd := by
  have h1 : (fwdLoopRef (minsOfDay ssa) (goAtoi sf) 7000 1).isSome := by
    apply fwdLoopRef_isSome _ _ hf
    push_cast
    omega
  have h2 : (bwdLoopRef (minsOfDay ssa) (goAtoi sf) 7000 1).isSome := by
    apply bwdLoopRef_isSome _ _ hf
    have hsi : ((minsOfDay ssa : Int)) < 1440 := by exact_mod_cast hs
    push_cast
    omega
  rw [Option.isSome_iff_exists] at h1 h2
  obtain ⟨fwd, hfwd⟩ := h1
  obtain ⟨bwd, hbwd⟩ := h2
  refine ⟨fwd, bwd, hfwd, hbwd, ?_⟩
  have hbrf : fwdLoop (minsOfDay ssa) (goAtoi sf) 7000 1 = some fwd := by
    rw [fwdLoop_eq_ref (minsOfDay ssa) (goAtoi sf) (Int.natCast_nonneg _) hf hb 7000 1
      (by push_cast; omega)]
    exact hfwd
  have hbrb : bwdLoop (minsOfDay ssa) (goAtoi sf) 7000 1 = some bwd := by
    rw [bwdLoop_eq_ref (minsOfDay ssa) (goAtoi sf) (Int.natCast_nonneg _)
      (by exact_mod_cast hs) hf hb 7000 1 (by push_cast; simp)]
    exact hbwd
  unfold scheduledTimes scheduledTimesWithFuel
  simp only [hbrf, hbrb, Option.getD_some]

theorem scheduledTimes_sorted_mem (sf ssa : String) (hf : 1 ≤ goAtoi sf)
    (hb : goAtoi sf ≤ 2 ^ 63 - 1440) (hs : minsOfDay ssa < 1440) :
    List.Pairwise (· < ·) (scheduledTimes sf ssa) ∧
    (∀ x ∈ scheduledTimes sf ssa, 0 ≤ x ∧ x < 1440) ∧
    (minsOfDay ssa : Int) ∈ scheduledTimes sf ssa ∧
    scheduledTimes sf ssa ≠ [] := by
  obtain ⟨fwd, bwd, hfwd, hbwd, heq⟩ := scheduledTimes_eq_of_pos sf ssa hf hb hs
  obtain ⟨hf1, hf2, hf3⟩ := fwdLoopRef_some_spec _ _ 7000 1 fwd hfwd
  obtain ⟨hb1, hb2, hb3⟩ := bwdLoopRef_some_spec _ _ 7000 1 bwd hbwd
  have hS0 : (0 : Int) ≤ (minsOfDay ssa : Int) := Int.natCast_nonneg _
  have hS1440 : ((minsOfDay ssa : Int)) < 1440 := by exact_mod_cast hs
  have hfwdMem : ∀ x ∈ fwd, (minsOfDay ssa : Int) < x ∧ 0 ≤ x ∧ x < 1440 := by
    intro x hx
    rw [hf1] at hx
    obtain ⟨i, hi, rfl⟩ := List.mem_map.1 hx
    rw [List.mem_range] at hi
    have hge : (0 : Int) ≤ (i : Int) * goAtoi sf :=
      mul_nonneg (Int.natCast_nonneg _) (by linarith)
    refine ⟨?_, ?_, hf3 i hi⟩
    · push_cast
      nlinarith
    · push_cast
      nlinarith
  have hbwdMem : ∀ x ∈ bwd, x < (minsOfDay ssa : Int) ∧ 0 ≤ x ∧ x < 1440 := by
    intro x hx
    have hx' := hx
    rw [hb1] at hx'
    obtain ⟨i, hi, rfl⟩ := List.mem_map.1 hx'
    rw [List.mem_range] at hi
    have hge : (0 : Int) ≤ (i : Int) * goAtoi sf :=
      mul_nonneg (Int.natCast_nonneg _) (by linarith)
    refine ⟨?_, hb3 i hi, ?_⟩
    · push_cast
      nlinarith
    · push_cast
      nlinarith
  have hfwdSorted : List.Pairwise (· < ·) fwd := by
    rw [hf1, List.pairwise_map]
    refine (List.pairwise_lt_range _).imp ?_
    intro i j hij
    have hij' : (i : Int) < (j : Int) := by exact_mod_cast hij
    push_cast
    nlinarith
  have hbwdRevSorted : List.Pairwise (· < ·) bwd.reverse := by
    rw [List.pairwise_reverse, hb1, List.pairwise_map]
    refine (List.pairwise_lt_range _).imp ?_
    intro i j hij
    have hij' : (i : Int) < (j : Int) := by exact_mod_cast hij
    push_cast
    nlinarith
  refine ⟨?_, ?_, ?_, ?_⟩
  · rw [heq, List.pairwise_append]
    refine ⟨hbwdRevSorted, ?_, ?_⟩
    · rw [List.pairwise_cons]
      exact ⟨fun b hb => (hfwdMem b hb).1, hfwdSorted⟩
    · intro a ha b hb
      rw [List.mem_reverse] at ha
      have ha' := (hbwdMem a ha).1
      rcases List.mem_cons.1 hb with rfl | hb'
      · exact ha'
      · exact lt_trans ha' (hfwdMem b hb').1
  · intro x hx
    rw [heq] at hx
    rcases List.mem_append.1 hx with hx' | hx'
    · rw [List.mem_reverse] at hx'
      exact ⟨(hbwdMem x hx').2.1, (hbwdMem x hx').2.2⟩
    · rcases List.mem_cons.1 hx' with rfl | hx''
      · exact ⟨hS0, hS1440⟩
      · exact ⟨(hfwdMem x hx'').2.1, (hfwdMem x hx'').2.2⟩
  · rw [heq]
    exact List.mem_append_right _ (List.mem_cons_self _ _)
  · rw [heq]
    simp

theorem scheduledTimes_length_aligned (sf ssa : String) (hf : 1 ≤ goAtoi sf)
    (hb : goAtoi sf ≤ 2 ^ 63 - 1440)
    (hs : minsOfDay ssa < 1440) (hal : minsOfDay ssa % (goAtoi sf).toNat = 0) :
    (scheduledTimes sf ssa).length = (1440 + (goAtoi sf).toNat - 1) / (goAtoi sf).toNat := by
  obtain ⟨fwd, bwd, hfwd, hbwd, heq⟩ := scheduledTimes_eq_of_pos sf ssa hf hb hs
  obtain ⟨hf1, hf2, hf3⟩ := fwdLoopRef_some_spec _ _ 7000 1 fwd hfwd
  obtain ⟨hb1, hb2, hb3⟩ := bwdLoopRef_some_spec _ _ 7000 1 bwd hbwd
  have hFcast : (((goAtoi sf).toNat : Int)) = goAtoi sf := Int.toNat_of_nonneg (by linarith)
  set S := minsOfDay ssa with hSdef
  set fN := (goAtoi sf).toNat with hfNdef
  set b := bwd.length with hbdef
  set k := fwd.length with hkdef
  have hfN1 : 1 ≤ fN := by omega
  have hb_up : S < (b + 1) * fN := by
    rw [← hFcast] at hb2
    have : ((S : Int)) < ((b + 1 : Nat) : Int) * ((fN : Int)) := by push_cast; push_cast at hb2; linarith [hb2]
    exact_mod_cast this
  have hb_low : b * fN ≤ S := by
    match hbv : b with
    | 0 => simp
    | b' + 1 =>
      have hb3' := hb3 b' (by omega)
      rw [← hFcast] at hb3'
      have : ((b' + 1 : Nat) : Int) * ((fN : Int)) ≤ ((S : Int)) := by
        push_cast; push_cast at hb3'; linarith [hb3']
      exact_mod_cast this
  have hk_low : S + k * fN < 1440 := by
    match hkv : k with
    | 0 => simpa using hs
    | k' + 1 =>
      have hf3' := hf3 k' (by omega)
      rw [← hFcast] at hf3'
      have : ((S : Int)) + ((k' + 1 : Nat) : Int) * ((fN : Int)) < 1440 := by
        push_cast; push_cast at hf3'; linarith [hf3']
      exact_mod_cast this
  have hk_up : 1440 ≤ S + (k + 1) * fN := by
    rw [← hFcast] at hf2
    have : (1440 : Int) ≤ ((S : Int)) + ((k + 1 : Nat) : Int) * ((fN : Int)) := by
      push_cast; push_cast at hf2; linarith [hf2]
    exact_mod_cast this
  have hdvd : fN ∣ S := Nat.dvd_of_mod_eq_zero hal
  have hdiv : S / fN = b := Nat.div_eq_of_lt_le hb_low hb_up
  have hbS : b * fN = S := by
    rw [← hdiv]
    exact Nat.div_mul_cancel hdvd
  have hlen : (scheduledTimes sf ssa).length = b + 1 + k := by
    rw [heq]
    simp only [List.length_append, List.length_reverse, List.length_cons, ← hbdef, ← hkdef]
    omega
  rw [hlen]
  have e1 : (b + 1 + k) * fN = b * fN + k * fN + fN := by ring
  have e2 : (b + 1 + k + 1) * fN = b * fN + k * fN + fN + fN := by ring
  have e3 : (k + 1) * fN = k * fN + fN := by ring
  refine (Nat.div_eq_of_lt_le ?_ ?_).symm
  · rw [e1, hbS]
    omega
  · rw [e2, hbS]
    rw [e3] at hk_up
    omega

theorem findPosGo_eq_takeWhile (cur : Int) (n : Nat) :
    ∀ (l : List Int) (idx : Nat) (pos : Int), l ≠ [] → idx + l.length = n →
      findPosGo cur n l idx pos =
        (idx : Int) + ((l.takeWhile (fun x => decide (x ≤ cur))).length : Int) - 1 := by
  intro l
  induction l with
  | nil => intro idx pos h _; exact absurd rfl h
  | cons hd rest ih =>
    intro idx pos _ hn
    rw [findPosGo]
    by_cases hcur : hd ≤ cur
    · rw [if_pos hcur]
      by_cases hrest : rest = []
      · subst hrest
        have hidx : idx = n - 1 := by simp only [List.length_cons, List.length_nil] at hn; omega
        rw [findPosGo, if_pos hidx]
        rw [List.takeWhile_cons, if_pos (decide_eq_true hcur)]
        simp
      · have hlen1 : 0 < rest.length := List.length_pos.2 hrest
        have hne : idx ≠ n - 1 := by simp only [List.length_cons] at hn; omega
        rw [if_neg hne, ih (idx + 1) pos hrest (by simp only [List.length_cons] at hn; omega)]
        rw [List.takeWhile_cons, if_pos (decide_eq_true hcur)]
        simp only [List.length_cons]
        push_cast
        ring
    · rw [if_neg hcur, List.takeWhile_cons, if_neg (by simpa using hcur)]
      simp

theorem findPos_eq (cur : Int) (l : List Int) (h : l ≠ []) :
    findPos cur l = ((l.takeWhile (fun x => decide (x ≤ cur))).length : Int) - 1 := by
  have := findPosGo_eq_takeWhile cur l.length l 0 0 h (by simp)
  simpa using this

theorem getLastD_mem_of_ne_nil : ∀ (l : List Int) (d : Int), l ≠ [] → l.getLastD d ∈ l := by
  intro l
  induction l with
  | nil => intro d h; exact absurd rfl h
  | cons a rest ih =>
    intro d _
    rw [List.getLastD_cons]
    by_cases hrest : rest = []
    · subst hrest; simp
    · exact List.mem_cons_of_mem a (ih a hrest)

theorem sorted_le_getLastD : ∀ {l : List Int}, List.Pairwise (· < ·) l →
    ∀ {x : Int}, x ∈ l → ∀ (d : Int), x ≤ l.getLastD d := by
  intro l
  induction l with
  | nil => intro _ x hx; simp at hx
  | cons a rest ih =>
    intro hl x hx d
    rw [List.getLastD_cons]
    rcases List.mem_cons.1 hx with rfl | hx'
    · by_cases hrest : rest = []
      · subst hrest; simp
      · exact le_of_lt ((List.pairwise_cons.1 hl).1 _ (getLastD_mem_of_ne_nil rest x hrest))
    · exact ih (List.pairwise_cons.1 hl).2 hx' a

theorem mem_takeWhile_of_sorted {cur : Int} : ∀ {l : List Int}, List.Pairwise (· < ·) l →
    ∀ {x : Int}, x ∈ l → x ≤ cur → x ∈ l.takeWhile (fun y => decide (y ≤ cur)) := by
  intro l
  induction l with
  | nil => intro _ x hx _; simp at hx
  | cons a rest ih =>
    intro hl x hx hxc
    rw [List.takeWhile_cons]
    by_cases ha : a ≤ cur
    · rw [if_pos (decide_eq_true ha)]
      rcases List.mem_cons.1 hx with rfl | hx'
      · exact List.mem_cons_self _ _
      · exact List.mem_cons_of_mem _ (ih (List.pairwise_cons.1 hl).2 hx' hxc)
    · rcases List.mem_cons.1 hx with rfl | hx'
      · exact absurd hxc ha
      · have hax : a < x := (List.pairwise_cons.1 hl).1 x hx'
        exact absurd hxc (by push_neg at ha ⊢; linarith)

theorem getLastD_default_irrel : ∀ (l : List Int), l ≠ [] → ∀ (d e : Int),
    l.getLastD d = l.getLastD e := by
  intro l
  cases l with
  | nil => intro h; exact absurd rfl h
  | cons a rest => intro _ d e; rw [List.getLastD_cons, List.getLastD_cons]

theorem getD_length_sub_one : ∀ (l : List Int) (d : Int), l ≠ [] →
    l.getD (l.length - 1) d = l.getLastD d := by
  intro l
  induction l with
  | nil => intro d h; exact absurd rfl h
  | cons a rest ih =>
    intro d _
    rw [List.getLastD_cons]
    by_cases hrest : rest = []
    · subst hrest; simp [List.getD]
    · obtain ⟨m, hm⟩ : ∃ m, rest.length = m + 1 :=
        ⟨rest.length - 1, by have := List.length_pos.2 hrest; omega⟩
      have h1 : (a :: rest).length - 1 = m + 1 := by simp [hm]
      rw [h1, List.getD_cons_succ]
      have hres := ih d hrest
      rw [hm] at hres
      simp only [Nat.add_sub_cancel] at hres
      rw [hres]
      exact getLastD_default_irrel rest hrest d a

/-- Unfolding equation for `prevScheduledTime`. -/
theorem prevScheduledTime_eq (sf ssa : String) (t : Nat) :
    prevScheduledTime sf ssa t =
      if findPos ((t : Int) % 1440) (scheduledTimes sf ssa) < 0 then
        ((t : Int) / 1440) * 1440 - 1440 + (scheduledTimes sf ssa).getLastD 0
      else ((t : Int) / 1440) * 1440 +
        (scheduledTimes sf ssa).getD
          (findPos ((t : Int) % 1440) (scheduledTimes sf ssa)).toNat 0 := rfl

/-- Master specification of `prevScheduledTime`: for a positive parsed
frequency and valid start time, the result is a scheduled instant, is `≤ now`,
and every scheduled instant `≤ now` is `≤` it (so it is the most recent one). -/
theorem prevScheduledTime_spec (sf ssa : String) (t : Nat) (hf : 1 ≤ goAtoi sf)
    (hb : goAtoi sf ≤ 2 ^ 63 - 1440) (hs : minsOfDay ssa < 1440) :
    (∃ d m : Int, m ∈ scheduledTimes sf ssa ∧
        prevScheduledTime sf ssa t = 1440 * d + m) ∧
    prevScheduledTime sf ssa t ≤ (t : Int) ∧
    ∀ d m : Int, m ∈ scheduledTimes sf ssa → 1440 * d + m ≤ (t : Int) →
      1440 * d + m ≤ prevScheduledTime sf ssa t := by
  obtain ⟨hsort, hbounds, hmemS, hne⟩ := scheduledTimes_sorted_mem sf ssa hf hb hs
  set L := scheduledTimes sf ssa with hL
  set cur : Int := (t : Int) % 1440 with hcur
  set D : Int := (t : Int) / 1440 with hD
  have ht : 1440 * D + cur = (t : Int) := Int.ediv_add_emod (t : Int) 1440
  have hcur0 : 0 ≤ cur := Int.emod_nonneg _ (by norm_num)
  have hcur1440 : cur < 1440 := Int.emod_lt_of_pos _ (by norm_num)
  set tw := L.takeWhile (fun y => decide (y ≤ cur)) with htwdef
  have hfind : findPos cur L = ((tw.length : Int)) - 1 := findPos_eq cur L hne
  have hLsplit : tw ++ L.dropWhile (fun y => decide (y ≤ cur)) = L :=
    List.takeWhile_append_dropWhile _ _
  have htwsub : ∀ x ∈ tw, x ∈ L := by
    intro x hx
    rw [← hLsplit]
    exact List.mem_append_left _ hx
  rw [prevScheduledTime_eq]
  rw [← hL, ← hcur, ← hD, hfind]
  by_cases htwnil : tw = []
  · have hall : ∀ x ∈ L, cur < x := by
      intro x hx
      by_contra hle
      push_neg at hle
      have := mem_takeWhile_of_sorted hsort hx hle
      rw [← htwdef, htwnil] at this
      simp at this
    have hcond : ((tw.length : Int)) - 1 < 0 := by rw [htwnil]; simp
    rw [if_pos hcond]
    have hlast_mem : L.getLastD 0 ∈ L := getLastD_mem_of_ne_nil L 0 hne
    have hlast_lt : L.getLastD 0 < 1440 := (hbounds _ hlast_mem).2
    have hlast_ge : 0 ≤ L.getLastD 0 := (hbounds _ hlast_mem).1
    refine ⟨⟨D - 1, L.getLastD 0, hlast_mem, by ring⟩, by linarith, ?_⟩
    intro d m hm hle
    have hcm : cur < m := hall m hm
    have hm1440 : m < 1440 := (hbounds _ hm).2
    have hmlast : m ≤ L.getLastD 0 := sorted_le_getLastD hsort hm 0
    rcases lt_trichotomy d D with hd | rfl | hd
    · have : d ≤ D - 1 := by omega
      nlinarith
    · linarith
    · have : D + 1 ≤ d := by omega
      nlinarith
  · have hlen1 : 0 < tw.length := List.length_pos.2 htwnil
    have hcond : ¬ ((tw.length : Int)) - 1 < 0 := by
      push_neg
      have : (1 : Int) ≤ (tw.length : Int) := by exact_mod_cast hlen1
      omega
    rw [if_neg hcond]
    have htn : (((tw.length : Int)) - 1).toNat = tw.length - 1 := by omega
    have hgetD : L.getD (tw.length - 1) 0 = tw.getLastD 0 := by
      rw [← hLsplit,
        List.getD_append _ _ _ _ (by omega : tw.length - 1 < tw.length)]
      exact getD_length_sub_one tw 0 htwnil
    rw [htn, hgetD]
    have hm0_mem_tw : tw.getLastD 0 ∈ tw := getLastD_mem_of_ne_nil tw 0 htwnil
    have hm0_mem : tw.getLastD 0 ∈ L := htwsub _ hm0_mem_tw
    have hm0_cur : tw.getLastD 0 ≤ cur := by
      have h' := hm0_mem_tw
      rw [htwdef] at h'
      have h2 := List.mem_takeWhile_imp h'
      simp only [decide_eq_true_eq] at h2
      rw [htwdef]
      exact h2
    have hm0_ge : 0 ≤ tw.getLastD 0 := (hbounds _ hm0_mem).1
    have htwsorted : List.Pairwise (· < ·) tw :=
      List.Pairwise.sublist (List.takeWhile_sublist _) hsort
    refine ⟨⟨D, tw.getLastD 0, hm0_mem, by ring⟩, by linarith, ?_⟩
    intro d m hm hle
    have hm1440 : m < 1440 := (hbounds _ hm).2
    have hm0' : 0 ≤ m := (hbounds _ hm).1
    rcases lt_trichotomy d D with hd | rfl | hd
    · have : d ≤ D - 1 := by omega
      nlinarith
    · have hmcur : m ≤ cur := by linarith
      have hmtw : m ∈ tw := mem_takeWhile_of_sorted hsort hm hmcur
      have : m ≤ tw.getLastD 0 := sorted_le_getLastD htwsorted hmtw 0
      linarith
    · have : D + 1 ≤ d := by omega
      nlinarith


theorem takeWhile_all {p : Int → Bool} :
    ∀ {l : List Int}, (∀ x ∈ l, p x = true) → l.takeWhile p = l := by
  intro l
  induction l with
  | nil => intro _; rfl
  | cons a rest ih =>
    intro h
    rw [List.takeWhile_cons, if_pos (h a (List.mem_cons_self _ _)),
      ih (fun x hx => h x (List.mem_cons_of_mem _ hx))]

/-- In the wrap regime `f = 2^63 - e` with `1 ≤ e ≤ 1439`, the forward loop
terminates and only ever appends values `≤ start`: even counters contribute
`start - c*e`, odd counters contribute `start - c*e - 2^63` while `c*e ≤
start`, and the first odd counter with `c*e > start` wraps to a huge positive
value `≥ 1440` and breaks. -/
theorem fwdLoop_garbage (start e : Int) (h0 : 0 ≤ start) (h1 : start < 1440)
    (he1 : 1 ≤ e) (he2 : e ≤ 1439) :
    ∀ (fuel c : Nat), 1 ≤ c →
      (c % 2 = 1 → ((c : Int) - 2) * e ≤ start) →
      (c % 2 = 0 → ((c : Int) - 1) * e ≤ start) →
      (start + 3 - (c : Int)).toNat < fuel →
      ∃ l, fwdLoop start (2 ^ 63 - e) fuel c = some l ∧ ∀ x ∈ l, x ≤ start := by
  intro fuel
  induction fuel with
  | zero => intro c _ _ _ hm; omega
  | succ fuel ih =>
    intro c hc hodd heven hm
    rw [fwdLoop]
    rcases Nat.even_or_odd c with hpar | hpar
    · obtain ⟨m, hm2⟩ := hpar
      have hcm : c % 2 = 0 := by omega
      have hcge : (2 : Int) ≤ (c : Int) := by
        have : c ≠ 1 := by omega
        exact_mod_cast (by omega : 2 ≤ c)
      have hP : ((c : Int) - 1) * e ≤ start := heven hcm
      have hPe : ((c : Int) - 1) * e = (c : Int) * e - e := by ring
      have hPup : (c : Int) * e ≤ start + e := by omega
      have hPlow : 2 * e ≤ (c : Int) * e := by nlinarith
      have hc2 : (c : Int) = 2 * (m : Int) := by omega
      have hval : start + (c : Int) * (2 ^ 63 - e) =
          (start - (c : Int) * e) + (m : Int) * 2 ^ 64 := by
        rw [hc2]; ring
      have hmins : wrap64 (start + (c : Int) * (2 ^ 63 - e)) = start - (c : Int) * e := by
        have hcg : wrap64 ((start - (c : Int) * e) + (m : Int) * 2 ^ 64) =
            wrap64 (start - (c : Int) * e) :=
          wrap64_congr ⟨(m : Int), by ring⟩
        rw [hval, hcg]
        exact wrap64_eq_self (by omega) (by omega)
      have hclow : (c : Int) ≤ start + 1 := by nlinarith
      obtain ⟨rest, hrest, hmem⟩ := ih (c + 1) (by omega)
        (fun _ => by
          have hre : ((c + 1 : Nat) : Int) - 2 = (c : Int) - 1 := by push_cast; ring
          rw [hre]; exact hP)
        (fun h => by exfalso; omega)
        (by push_cast; omega)
      refine ⟨(start - (c : Int) * e) :: rest, ?_, ?_⟩
      · simp only [hmins]
        rw [if_neg (by omega), hrest]
      · intro x hx
        rcases List.mem_cons.1 hx with rfl | hx'
        · omega
        · exact hmem x hx'
    · obtain ⟨m, hm2⟩ := hpar
      have hcm : c % 2 = 1 := by omega
      have hP2 : ((c : Int) - 2) * e ≤ start := hodd hcm
      have hP2e : ((c : Int) - 2) * e = (c : Int) * e - 2 * e := by ring
      have hPup : (c : Int) * e ≤ start + 2 * e := by omega
      have hc2 : (c : Int) = 2 * (m : Int) + 1 := by omega
      have hval : start + (c : Int) * (2 ^ 63 - e) =
          (start - (c : Int) * e + 2 ^ 63) + (m : Int) * 2 ^ 64 := by
        rw [hc2]; ring
      have hc0 : (1 : Int) ≤ (c : Int) := by exact_mod_cast hc
      have hcePos : e ≤ (c : Int) * e := by nlinarith
      by_cases hsub : (c : Int) * e ≤ start
      · have hmins : wrap64 (start + (c : Int) * (2 ^ 63 - e)) =
            start - (c : Int) * e - 2 ^ 63 := by
          have hcg : wrap64 ((start - (c : Int) * e + 2 ^ 63) + (m : Int) * 2 ^ 64) =
              wrap64 (start - (c : Int) * e + 2 ^ 63) :=
            wrap64_congr ⟨(m : Int), by ring⟩
          rw [hval, hcg]
          unfold wrap64
          omega
        have hclow : (c : Int) ≤ start := by nlinarith
        obtain ⟨rest, hrest, hmem⟩ := ih (c + 1) (by omega)
          (fun h => by exfalso; omega)
          (fun _ => by
            have hre : ((c + 1 : Nat) : Int) - 1 = (c : Int) := by push_cast; ring
            rw [hre]; exact hsub)
          (by push_cast; omega)
        refine ⟨(start - (c : Int) * e - 2 ^ 63) :: rest, ?_, ?_⟩
        · simp only [hmins]
          rw [if_neg (by omega), hrest]
        · intro x hx
          rcases List.mem_cons.1 hx with rfl | hx'
          · omega
          · exact hmem x hx'
      · push_neg at hsub
        have hmins : wrap64 (start + (c : Int) * (2 ^ 63 - e)) =
            2 ^ 63 + start - (c : Int) * e := by
          have hcg : wrap64 ((start - (c : Int) * e + 2 ^ 63) + (m : Int) * 2 ^ 64) =
              wrap64 (start - (c : Int) * e + 2 ^ 63) :=
            wrap64_congr ⟨(m : Int), by ring⟩
          rw [hval, hcg]
          unfold wrap64
          omega
        refine ⟨[], ?_, by simp⟩
        simp only [hmins]
        rw [if_pos (by omega)]

theorem fwdLoop_succ_not_break (start f : Int) (fuel c : Nat)
    (h : ¬ (1440 : Int) ≤ wrap64 (start + (c : Int) * f))
    (hrec : fwdLoop start f fuel (c + 1) = none) :
    fwdLoop start f (fuel + 1) c = none := by
  rw [fwdLoop]
  simp only [if_neg h, hrec]

theorem bwdLoop_succ_break (start f : Int) (fuel c : Nat)
    (h : wrap64 (start - (c : Int) * f) < 0) :
    bwdLoop start f (fuel + 1) c = some [] := by
  rw [bwdLoop]
  simp only [if_pos h]

theorem bwdLoop_break_one (start f : Int) (hneg : wrap64 (start - f) < 0) :
    ∀ fuel, 1 ≤ fuel → bwdLoop start f fuel 1 = some [] := by
  intro fuel hfuel
  obtain ⟨n, rfl⟩ : ∃ n, fuel = n + 1 := ⟨fuel - 1, by omega⟩
  apply bwdLoop_succ_break
  push_cast [one_mul]
  exact hneg

/-- In the wrap regime `2^63 - 1439 ≤ f ≤ 2^63 - 1`, `scheduledTimes` is the
start minute followed only by values `≤` it (the backward loop wraps negative
immediately and contributes nothing). -/
theorem scheduledTimes_garbage (sf ssa : String) (hs : minsOfDay ssa < 1440)
    (hf1 : 2 ^ 63 - 1439 ≤ goAtoi sf) (hf2 : goAtoi sf ≤ 2 ^ 63 - 1) :
    ∃ l, scheduledTimes sf ssa = (minsOfDay ssa : Int) :: l ∧
      ∀ x ∈ l, x ≤ (minsOfDay ssa : Int) := by
  have hS0 : (0 : Int) ≤ (minsOfDay ssa : Int) := Int.natCast_nonneg _
  have hS1 : ((minsOfDay ssa : Int)) < 1440 := by exact_mod_cast hs
  have he1 : (1 : Int) ≤ 2 ^ 63 - goAtoi sf := by omega
  have he2 : (2 : Int) ^ 63 - goAtoi sf ≤ 1439 := by omega
  have hfe : (2 : Int) ^ 63 - (2 ^ 63 - goAtoi sf) = goAtoi sf := by ring
  obtain ⟨l, hl, hmem⟩ := fwdLoop_garbage (minsOfDay ssa) (2 ^ 63 - goAtoi sf)
    hS0 hS1 he1 he2 7000 1 (by omega)
    (fun _ => by push_cast; omega)
    (fun h => by exfalso; omega)
    (by push_cast; omega)
  rw [hfe] at hl
  have hbwd : bwdLoop (minsOfDay ssa) (goAtoi sf) 7000 1 = some [] := by
    apply bwdLoop_break_one _ _ _ 7000 (by norm_num)
    rw [wrap64_eq_self (by omega) (by omega)]
    omega
  refine ⟨l, ?_, hmem⟩
  unfold scheduledTimes scheduledTimesWithFuel
  simp only [hl, hbwd, Option.getD_some, List.reverse_nil, List.nil_append]

/-- In the wrap regime, `prevScheduledTime` is determined solely by whether
the minute-of-day has reached the start minute, with the list's last element
as the offset in both cases. -/
theorem prevScheduledTime_garbage (sf ssa : String) (t : Nat)
    (hs : minsOfDay ssa < 1440)
    (hf1 : 2 ^ 63 - 1439 ≤ goAtoi sf) (hf2 : goAtoi sf ≤ 2 ^ 63 - 1) :
    prevScheduledTime sf ssa t =
      if ((t : Int) % 1440) < (minsOfDay ssa : Int) then
        ((t : Int) / 1440) * 1440 - 1440 + (scheduledTimes sf ssa).getLastD 0
      else ((t : Int) / 1440) * 1440 + (scheduledTimes sf ssa).getLastD 0 := by
  obtain ⟨l, hL, hmem⟩ := scheduledTimes_garbage sf ssa hs hf1 hf2
  rw [prevScheduledTime_eq]
  have hne : scheduledTimes sf ssa ≠ [] := by rw [hL]; simp
  by_cases hcs : ((t : Int) % 1440) < (minsOfDay ssa : Int)
  · have hfp : findPos ((t : Int) % 1440) (scheduledTimes sf ssa) = -1 := by
      rw [findPos_eq _ _ hne, hL, List.takeWhile_cons,
        if_neg (by simpa using not_le.2 hcs)]
      simp
    rw [hfp, if_pos (by norm_num), if_pos hcs]
  · push_neg at hcs
    have hall : ∀ x ∈ scheduledTimes sf ssa,
        (fun y => decide (y ≤ (t : Int) % 1440)) x = true := by
      intro x hx
      rw [hL] at hx
      rcases List.mem_cons.1 hx with rfl | hx'
      · simpa using hcs
      · simpa using le_trans (hmem x hx') hcs
    have htw := takeWhile_all hall
    have hlen : 1 ≤ (scheduledTimes sf ssa).length := List.length_pos.2 hne
    have hlen' : (1 : Int) ≤ ((scheduledTimes sf ssa).length : Int) := by
      exact_mod_cast hlen
    rw [findPos_eq _ _ hne, htw, if_neg (by omega)]
    have htn : ((((scheduledTimes sf ssa).length : Int)) - 1).toNat =
        (scheduledTimes sf ssa).length - 1 := by omega
    rw [htn, getD_length_sub_one _ 0 hne, if_neg (not_lt.2 hcs)]

theorem fwdLoop_none_of_zero (start : Int) (h0 : 0 ≤ start) (h1 : start < 1440) :
    ∀ fuel c, fwdLoop start 0 fuel c = none := by
  intro fuel
  induction fuel with
  | zero => intro c; rfl
  | succ fuel ih =>
    intro c
    apply fwdLoop_succ_not_break
    · rw [mul_zero, add_zero, wrap64_eq_self (by omega) (by omega)]
      omega
    · exact ih (c + 1)

theorem fwdLoop_none_of_minInt (start : Int) (h0 : 0 ≤ start) (h1 : start < 1440) :
    ∀ fuel c, fwdLoop start (-(2 ^ 63)) fuel c = none := by
  intro fuel
  induction fuel with
  | zero => intro c; rfl
  | succ fuel ih =>
    intro c
    apply fwdLoop_succ_not_break
    · unfold wrap64
      omega
    · exact ih (c + 1)

theorem fwdLoop_isSome_of_break (start f : Int) (k : Nat)
    (hbrk : 1440 ≤ wrap64 (start + (k : Int) * f)) :
    ∀ (fuel c : Nat), c ≤ k → k - c < fuel → (fwdLoop start f fuel c).isSome := by
  intro fuel
  induction fuel with
  | zero => intro c _ h; omega
  | succ fuel ih =>
    intro c hck hfu
    rw [fwdLoop]
    by_cases hbr : (1440 : Int) ≤ wrap64 (start + (c : Int) * f)
    · simp [hbr]
    · have hne : c ≠ k := fun h => hbr (h ▸ hbrk)
      have hrec := ih (c + 1) (by omega) (by omega)
      rw [Option.isSome_iff_exists] at hrec
      obtain ⟨rest, hrest⟩ := hrec
      simp [hbr, hrest]

theorem bwdLoop_isSome_of_break (start f : Int) (k : Nat)
    (hbrk : wrap64 (start - (k : Int) * f) < 0) :
    ∀ (fuel c : Nat), c ≤ k → k - c < fuel → (bwdLoop start f fuel c).isSome := by
  intro fuel
  induction fuel with
  | zero => intro c _ h; omega
  | succ fuel ih =>
    intro c hck hfu
    rw [bwdLoop]
    by_cases hbr : wrap64 (start - (c : Int) * f) < 0
    · simp [hbr]
    · have hne : c ≠ k := fun h => hbr (h ▸ hbrk)
      have hrec := ih (c + 1) (by omega) (by omega)
      rw [Option.isSome_iff_exists] at hrec
      obtain ⟨rest, hrest⟩ := hrec
      simp [hbr, hrest]

/-- Bezout-based solvability: any target divisible by `gcd(d, 2^64)` is hit
by some positive natural multiple of `d` modulo `2^64`. -/
theorem exists_nat_mul_cong (d t : Int)
    (hdvd : ((Int.gcd d (2 ^ 64) : Nat) : Int) ∣ t) :
    ∃ k : Nat, 1 ≤ k ∧ (2 ^ 64 : Int) ∣ ((k : Int) * d - t) := by
  obtain ⟨w, hw⟩ := hdvd
  have hbez : ((Int.gcd d (2 ^ 64) : Nat) : Int) =
      d * Int.gcdA d (2 ^ 64) + 2 ^ 64 * Int.gcdB d (2 ^ 64) :=
    Int.gcd_eq_gcd_ab d (2 ^ 64)
  set g : Int := ((Int.gcd d (2 ^ 64) : Nat) : Int) with hgdef
  set A : Int := Int.gcdA d (2 ^ 64) with hAdef
  set B : Int := Int.gcdB d (2 ^ 64) with hBdef
  set k0 : Int := (A * w) % (2 ^ 64) with hk0
  have hk00 : 0 ≤ k0 := Int.emod_nonneg _ (by norm_num)
  have hk0lt : k0 < 2 ^ 64 := Int.emod_lt_of_pos _ (by norm_num)
  have hker : (2 ^ 64 : Int) ∣ (k0 * d - t) := by
    refine ⟨-(A * w / 2 ^ 64) * d - B * w, ?_⟩
    have hmod : k0 = A * w - 2 ^ 64 * (A * w / 2 ^ 64) := by
      rw [hk0, Int.emod_def]
    have hABg : A * d - g = -(2 ^ 64 * B) := by rw [hbez]; ring
    calc k0 * d - t = (A * w - 2 ^ 64 * (A * w / 2 ^ 64)) * d - g * w := by
          rw [← hmod, hw]
      _ = (A * d - g) * w - 2 ^ 64 * ((A * w / 2 ^ 64) * d) := by ring
      _ = (-(2 ^ 64 * B)) * w - 2 ^ 64 * ((A * w / 2 ^ 64) * d) := by rw [hABg]
      _ = 2 ^ 64 * (-(A * w / 2 ^ 64) * d - B * w) := by ring
  by_cases hz : k0 = 0
  · refine ⟨2 ^ 64, by norm_num, ?_⟩
    obtain ⟨u, hu⟩ := hker
    rw [hz, zero_mul] at hu
    refine ⟨d + u, ?_⟩
    have hc : (((2 ^ 64 : Nat) : Int)) = 2 ^ 64 := by norm_num
    rw [hc]
    linarith [hu]
  · refine ⟨k0.toNat, by omega, ?_⟩
    rw [Int.toNat_of_nonneg hk00]
    exact hker

theorem gcd_pow_two_le (f : Int) (hf0 : f ≠ 0) (hfm : f ≠ -(2 ^ 63))
    (hlo : -(2 ^ 63) ≤ f) (hhi : f < 2 ^ 63) :
    1 ≤ Int.gcd f (2 ^ 64) ∧ Int.gcd f (2 ^ 64) ≤ 2 ^ 62 := by
  have habs1 : 1 ≤ f.natAbs := by omega
  have habs2 : f.natAbs ≤ 2 ^ 63 := by omega
  have hne : f.natAbs ≠ 2 ^ 63 := by omega
  have hgd1 : Int.gcd f (2 ^ 64) ∣ f.natAbs := Nat.gcd_dvd_left _ _
  have hgd2 : Int.gcd f (2 ^ 64) ∣ 2 ^ 64 := by
    have hnab : ((2 : Int) ^ 64).natAbs = 2 ^ 64 := rfl
    have := Nat.gcd_dvd_right f.natAbs ((2 : Int) ^ 64).natAbs
    rwa [hnab] at this
  obtain ⟨i, hile, hgeq⟩ := (Nat.dvd_prime_pow Nat.prime_two).1 hgd2
  have hi62 : i ≤ 62 := by
    by_contra hgt
    push_neg at hgt
    have hdvd63 : (2 : Nat) ^ 63 ∣ f.natAbs :=
      dvd_trans (pow_dvd_pow 2 (by omega)) (hgeq ▸ hgd1)
    have := Nat.le_of_dvd (by omega) hdvd63
    omega
  refine ⟨?_, ?_⟩
  · rw [hgeq]
    exact Nat.one_le_pow _ _ (by norm_num)
  · rw [hgeq]
    exact Nat.pow_le_pow_right (by norm_num) hi62

theorem fwd_exists_break (start f : Int) (h0 : 0 ≤ start) (h1 : start < 1440)
    (hf0 : f ≠ 0) (hfm : f ≠ -(2 ^ 63)) (hlo : -(2 ^ 63) ≤ f) (hhi : f < 2 ^ 63) :
    ∃ k : Nat, 1 ≤ k ∧ 1440 ≤ wrap64 (start + (k : Int) * f) := by
  obtain ⟨hg1, hg2⟩ := gcd_pow_two_le f hf0 hfm hlo hhi
  have hg1' : (1 : Int) ≤ ((Int.gcd f (2 ^ 64) : Nat) : Int) := by exact_mod_cast hg1
  have hg2' : ((Int.gcd f (2 ^ 64) : Nat) : Int) ≤ 2 ^ 62 := by exact_mod_cast hg2
  set g : Int := ((Int.gcd f (2 ^ 64) : Nat) : Int) with hgdef
  set r : Int := (start - 1440) % g with hrdef
  have hr0 : 0 ≤ r := Int.emod_nonneg _ (by omega)
  have hrlt : r < g := Int.emod_lt_of_pos _ (by omega)
  have hdvd : g ∣ (1440 + r - start) := by
    refine ⟨-((start - 1440) / g), ?_⟩
    rw [hrdef, Int.emod_def]
    ring
  obtain ⟨k, hk1, hk2⟩ := exists_nat_mul_cong f (1440 + r - start) hdvd
  refine ⟨k, hk1, ?_⟩
  have hco : wrap64 (start + (k : Int) * f) = wrap64 (1440 + r) := by
    apply wrap64_congr
    obtain ⟨u, hu⟩ := hk2
    exact ⟨u, by linarith [hu]⟩
  rw [hco, wrap64_eq_self (by omega) (by omega)]
  omega

theorem bwd_exists_break (start f : Int) (h0 : 0 ≤ start) (h1 : start < 1440)
    (hf0 : f ≠ 0) (hfm : f ≠ -(2 ^ 63)) (hlo : -(2 ^ 63) ≤ f) (hhi : f < 2 ^ 63) :
    ∃ k : Nat, 1 ≤ k ∧ wrap64 (start - (k : Int) * f) < 0 := by
  obtain ⟨hg1, hg2⟩ := gcd_pow_two_le f hf0 hfm hlo hhi
  have hg1' : (1 : Int) ≤ ((Int.gcd f (2 ^ 64) : Nat) : Int) := by exact_mod_cast hg1
  have hg2' : ((Int.gcd f (2 ^ 64) : Nat) : Int) ≤ 2 ^ 62 := by exact_mod_cast hg2
  set g : Int := ((Int.gcd f (2 ^ 64) : Nat) : Int) with hgdef
  set r : Int := (start + 2 ^ 63) % g with hrdef
  have hr0 : 0 ≤ r := Int.emod_nonneg _ (by omega)
  have hrlt : r < g := Int.emod_lt_of_pos _ (by omega)
  have hgneg : Int.gcd (-f) (2 ^ 64) = Int.gcd f (2 ^ 64) := by
    unfold Int.gcd
    rw [Int.natAbs_neg]
  have hdvd : ((Int.gcd (-f) (2 ^ 64) : Nat) : Int) ∣ (-(2 ^ 63) + r - start) := by
    rw [hgneg]
    refine ⟨-((start + 2 ^ 63) / g), ?_⟩
    rw [hrdef, Int.emod_def]
    ring
  obtain ⟨k, hk1, hk2⟩ := exists_nat_mul_cong (-f) (-(2 ^ 63) + r - start) hdvd
  refine ⟨k, hk1, ?_⟩
  have hco : wrap64 (start - (k : Int) * f) = wrap64 (-(2 ^ 63) + r) := by
    apply wrap64_congr
    obtain ⟨u, hu⟩ := hk2
    refine ⟨u, ?_⟩
    have hre : (start - (k : Int) * f) - (-(2 ^ 63) + r) =
        (k : Int) * (-f) - (-(2 ^ 63) + r - start) := by ring
    rw [hre, hu]
  rw [hco, wrap64_eq_self (by omega) (by omega)]
  omega

/-- Both loops of `scheduledTimes` terminate for every parsed frequency other
than 0 and MinInt64: some positive counter wraps the accumulator into the
break region. -/
theorem scheduledTimesWithFuel_isSome (sf ssa : String) (hs : minsOfDay ssa < 1440)
    (hf0 : goAtoi sf ≠ 0) (hfm : goAtoi sf ≠ -(2 ^ 63)) :
    ∃ fuel, (scheduledTimesWithFuel fuel sf ssa).isSome := by
  obtain ⟨hlo, hhi⟩ := goAtoi_bounds sf
  have hS0 : (0 : Int) ≤ (minsOfDay ssa : Int) := Int.natCast_nonneg _
  have hS1 : ((minsOfDay ssa : Int)) < 1440 := by exact_mod_cast hs
  obtain ⟨kf, hkf1, hkf⟩ := fwd_exists_break (minsOfDay ssa) (goAtoi sf)
    hS0 hS1 hf0 hfm hlo (by omega)
  obtain ⟨kb, hkb1, hkb⟩ := bwd_exists_break (minsOfDay ssa) (goAtoi sf)
    hS0 hS1 hf0 hfm hlo (by omega)
  refine ⟨kf + kb + 1, ?_⟩
  have h1 := fwdLoop_isSome_of_break (minsOfDay ssa) (goAtoi sf) kf hkf
    (kf + kb + 1) 1 (by omega) (by omega)
  have h2 := bwdLoop_isSome_of_break (minsOfDay ssa) (goAtoi sf) kb hkb
    (kf + kb + 1) 1 (by omega) (by omega)
  rw [Option.isSome_iff_exists] at h1 h2
  obtain ⟨fwd, hfwd⟩ := h1
  obtain ⟨bwd, hbwd⟩ := h2
  simp [scheduledTimesWithFuel, hfwd, hbwd]

/-! ## Claim theorems: scheduling -/

/-- C1 counterexample: the claim says the window is the closed interval
`[start, end]`, so a current time whose minute-of-day equals the window start
(05:09 = minute 309 of the window 05:09→09:07) should be inside; the code
uses strict comparisons and returns `false` there. -/
theorem claim_C1_counterexample :
    minsOfDay "05:09" = 309 ∧ minsOfDay "09:07" = 547 ∧
    checkCurrentTimeExistsInExcludeWindow 309 "05:09" "09:07" = false := by
  decide

/-- C1 (amended): with non-empty bounds, `checkCurrentTimeExistsInExcludeWindow`
returns true iff the minute-of-day lies strictly inside the window — for
`start < end` iff `start < min ∧ min < end`, and when the window wraps
(`end < start`) iff `min > start ∨ min < end` strictly; boundary minutes
equal to either bound are excluded. Empty bounds give false, and the window
22:09→09:07 still contains 23:30 and 06:00 and excludes 10:00. -/
theorem claim_C1_checkExcludeWindow (now : Nat) (ws we : String) :
    ((ws = "" ∨ we = "") → checkCurrentTimeExistsInExcludeWindow now ws we = false) ∧
    (ws ≠ "" → we ≠ "" →
      (checkCurrentTimeExistsInExcludeWindow now ws we = true ↔
        ((minsOfDay ws < now % 1440 ∧ now % 1440 < minsOfDay we) ∨
          (minsOfDay we < minsOfDay ws ∧
            (minsOfDay ws < now % 1440 ∨ now % 1440 < minsOfDay we))))) ∧
    checkCurrentTimeExistsInExcludeWindow 1410 "22:09" "09:07" = true ∧
    checkCurrentTimeExistsInExcludeWindow 360 "22:09" "09:07" = true ∧
    checkCurrentTimeExistsInExcludeWindow 600 "22:09" "09:07" = false := by
  refine ⟨?_, ?_, by decide, by decide, by decide⟩
  · intro h
    simp only [checkCurrentTimeExistsInExcludeWindow]
    rw [if_pos h]
  · intro hws hwe
    simp only [checkCurrentTimeExistsInExcludeWindow]
    rw [if_neg (by tauto)]
    split_ifs with h1 h2 h3 <;> simp <;> omega

theorem claim_C1_witness :
    checkCurrentTimeExistsInExcludeWindow 1410 "22:09" "09:07" = true :=
  (claim_C1_checkExcludeWindow 1410 "22:09" "09:07").2.2.1

/-- C2: with the force-always flag unset, no pending trigger and the
ignore-sync-frequency flag unset, `canCreateUpload` reports the exclude
window whenever the current time is inside it (in particular for the window
(05:09, 09:07) at 06:19), and otherwise — with both `syncFrequency` and
`syncStartAt` non-empty — returns true iff `LastCreatedAt` is strictly
before `prevScheduledTime`. -/
theorem claim_C2_canCreateUpload (r : SchedulerState)
    (h1 : r.startUploadAlways = false) (h2 : r.isTriggered = false)
    (h3 : r.warehouseSyncFreqIgnore = false) :
    (checkCurrentTimeExistsInExcludeWindow r.now r.excludeWindowStartTime
        r.excludeWindowEndTime = true →
      canCreateUpload r =
        (false, some "exclude window: current time exists in exclude window")) ∧
    (checkCurrentTimeExistsInExcludeWindow r.now r.excludeWindowStartTime
        r.excludeWindowEndTime = false →
      r.syncFrequency ≠ "" → r.syncStartAt ≠ "" →
      ((canCreateUpload r).1 = true ↔
        r.lastUploadCreatedAt < prevScheduledTime r.syncFrequency r.syncStartAt r.now)) ∧
    canCreateUpload
        { startUploadAlways := false, isTriggered := false,
          warehouseSyncFreqIgnore := false, uploadFrequencyExceededNoFreq := false,
          uploadFrequencyExceededWithFreq := false,
          excludeWindowStartTime := "05:09", excludeWindowEndTime := "09:07",
          syncFrequency := "30", syncStartAt := "13:00",
          lastUploadCreatedAt := 0, now := 379 } =
      (false, some "exclude window: current time exists in exclude window") := by
  refine ⟨?_, ?_, by decide⟩
  · intro hwin
    simp only [canCreateUpload]
    simp [h1, h2, h3, hwin]
  · intro hwin hsf hssa
    simp only [canCreateUpload]
    simp [h1, h2, h3, hwin, hsf, hssa]
    split_ifs with h <;> simp [h]

theorem claim_C2_witness :
    canCreateUpload
        { startUploadAlways := false, isTriggered := false,
          warehouseSyncFreqIgnore := false, uploadFrequencyExceededNoFreq := false,
          uploadFrequencyExceededWithFreq := false,
          excludeWindowStartTime := "05:09", excludeWindowEndTime := "09:07",
          syncFrequency := "30", syncStartAt := "13:00",
          lastUploadCreatedAt := 0, now := 379 } =
      (false, some "exclude window: current time exists in exclude window") :=
  (claim_C2_canCreateUpload
    { startUploadAlways := false, isTriggered := false,
      warehouseSyncFreqIgnore := false, uploadFrequencyExceededNoFreq := false,
      uploadFrequencyExceededWithFreq := false,
      excludeWindowStartTime := "05:09", excludeWindowEndTime := "09:07",
      syncFrequency := "30", syncStartAt := "13:00",
      lastUploadCreatedAt := 0, now := 379 } rfl rfl rfl).2.2

/-- C3 counterexample: within the claim's hypothesis of a positive parsed
frequency, the frequency 2^63 - 101 makes Go's wrapping int64 arithmetic put
the negative value -28 at the end of the schedule list; at `now` = minute
1470 `prevScheduledTime` returns -28 even though the scheduled instant 780
(13:00 of day 0) satisfies 780 ≤ 1470, so the result is not the most recent
scheduled instant ≤ now. -/
theorem claim_C3_counterexample :
    1 ≤ goAtoi "9223372036854775707" ∧
    (780 : Int) ∈ scheduledTimes "9223372036854775707" "13:00" ∧
    prevScheduledTime "9223372036854775707" "13:00" 1470 = -28 ∧
    1440 * 0 + (780 : Int) ≤ ((1470 : Nat) : Int) ∧
    ¬ (1440 * 0 + (780 : Int) ≤
        prevScheduledTime "9223372036854775707" "13:00" 1470) := by
  refine ⟨by decide, by decide, by decide, by decide, by decide⟩

/-- C3 (amended): for every positive-integer frequency small enough that the
int64 accumulator `start + counter*frequency` cannot wrap (`f ≤ 2^63 - 1440`)
and valid HH:MM start time, `prevScheduledTime` returns a scheduled instant
that is `≤ now` and is the most recent such instant (so an exact tie returns
that very instant); when `now` is before every daily slot, the last slot of
the prior UTC day is returned; in particular frequency 180, start 13:00 and
`now` = 00:30 of day 1 (minute 1470) give 22:00 of day 0 (minute 1320). -/
theorem claim_C3_prevScheduledTime (sf ssa : String) (t : Nat)
    (hf : 1 ≤ goAtoi sf) (hb : goAtoi sf ≤ 2 ^ 63 - 1440)
    (hs : minsOfDay ssa < 1440) :
    (∃ d m : Int, m ∈ scheduledTimes sf ssa ∧
        prevScheduledTime sf ssa t = 1440 * d + m) ∧
    prevScheduledTime sf ssa t ≤ (t : Int) ∧
    (∀ d m : Int, m ∈ scheduledTimes sf ssa → 1440 * d + m ≤ (t : Int) →
      1440 * d + m ≤ prevScheduledTime sf ssa t) ∧
    ((∀ x ∈ scheduledTimes sf ssa, ((t : Int) % 1440) < x) →
      prevScheduledTime sf ssa t =
        ((t : Int) / 1440) * 1440 - 1440 + (scheduledTimes sf ssa).getLastD 0) ∧
    prevScheduledTime "180" "13:00" 1470 = 1320 := by
  obtain ⟨hmem, hle, hmax⟩ := prevScheduledTime_spec sf ssa t hf hb hs
  refine ⟨hmem, hle, hmax, ?_, by decide⟩
  intro hall
  obtain ⟨hsort, hbounds, hmemS, hne⟩ := scheduledTimes_sorted_mem sf ssa hf hb hs
  rw [prevScheduledTime_eq, findPos_eq _ _ hne]
  have htw : ((scheduledTimes sf ssa).takeWhile
      (fun y => decide (y ≤ (t : Int) % 1440))).length = 0 := by
    cases hLs : scheduledTimes sf ssa with
    | nil => simp
    | cons a rest =>
      have ha : (t : Int) % 1440 < a := hall a (by rw [hLs]; exact List.mem_cons_self _ _)
      rw [List.takeWhile_cons, if_neg (by simpa using not_le.2 ha)]
      rfl
  rw [htw]
  norm_num

theorem claim_C3_witness :
    1 ≤ goAtoi "180" ∧ goAtoi "180" ≤ 2 ^ 63 - 1440 ∧ minsOfDay "13:00" < 1440 ∧
    prevScheduledTime "180" "13:00" 1470 = 1320 :=
  ⟨by decide, by decide, by decide,
    (claim_C3_prevScheduledTime "180" "13:00" 1470 (by decide) (by decide)
      (by decide)).2.2.2.2⟩

/-- C4: for a fixed positive-integer frequency and valid HH:MM start time,
`prevScheduledTime` is monotone non-decreasing in its time argument. This
holds even when the int64 accumulator wraps: in the wrap regime the schedule
list starts at the start minute and everything after it is smaller, so the
result is a day-aligned offset plus a fixed last element, monotone in the
day count. -/
theorem claim_C4_prevScheduledTime_monotone (sf ssa : String) (t1 t2 : Nat)
    (hf : 1 ≤ goAtoi sf) (hs : minsOfDay ssa < 1440) (h12 : t1 ≤ t2) :
    prevScheduledTime sf ssa t1 ≤ prevScheduledTime sf ssa t2 := by
  have h12' : ((t1 : Nat) : Int) ≤ ((t2 : Nat) : Int) := by exact_mod_cast h12
  rcases le_or_lt (goAtoi sf) (2 ^ 63 - 1440) with hb | hb
  · obtain ⟨⟨d, m, hm, he⟩, hle, _⟩ := prevScheduledTime_spec sf ssa t1 hf hb hs
    obtain ⟨_, _, hmax⟩ := prevScheduledTime_spec sf ssa t2 hf hb hs
    have hlt2 : 1440 * d + m ≤ (t2 : Int) := by
      calc 1440 * d + m = prevScheduledTime sf ssa t1 := he.symm
        _ ≤ (t1 : Int) := hle
        _ ≤ (t2 : Int) := h12'
    have := hmax d m hm hlt2
    rw [he]
    exact this
  · have hf1 : 2 ^ 63 - 1439 ≤ goAtoi sf := by omega
    have hf2 : goAtoi sf ≤ 2 ^ 63 - 1 := (goAtoi_bounds sf).2
    rw [prevScheduledTime_garbage sf ssa t1 hs hf1 hf2,
      prevScheduledTime_garbage sf ssa t2 hs hf1 hf2]
    split_ifs <;> omega

theorem claim_C4_witness :
    prevScheduledTime "180" "13:00" 1470 ≤ prevScheduledTime "180" "13:00" 5280 :=
  claim_C4_prevScheduledTime_monotone "180" "13:00" 1470 5280 (by decide) (by decide)
    (by decide)

/-- C5 counterexample: within the claim's hypothesis of a positive parsed
frequency, the frequency 2^63 - 101 wraps the int64 accumulator and the
program appends -9223372036854775129 to the schedule list, which is neither
in `[0, 1440)` nor sorted after the head 780. -/
theorem claim_C5_counterexample :
    1 ≤ goAtoi "9223372036854775707" ∧
    (-9223372036854775129 : Int) ∈ scheduledTimes "9223372036854775707" "13:00" := by
  refine ⟨by decide, by decide⟩

/-- C5 (amended): for a positive-integer frequency `f` small enough that the
int64 accumulator cannot wrap (`f ≤ 2^63 - 1440`) and valid HH:MM start,
`scheduledTimes` is strictly sorted, lies in `[0, 1440)`, contains the
minute-of-day of the start time, has length `⌈1440/f⌉` when the start is
aligned to the frequency (the "modulo alignment" proviso), and repeated
invocation through the cache returns the same list. -/
theorem claim_C5_scheduledTimes (sf ssa : String) (hf : 1 ≤ goAtoi sf)
    (hb : goAtoi sf ≤ 2 ^ 63 - 1440) (hs : minsOfDay ssa < 1440) :
    List.Pairwise (· < ·) (scheduledTimes sf ssa) ∧
    (∀ x ∈ scheduledTimes sf ssa, 0 ≤ x ∧ x < 1440) ∧
    (minsOfDay ssa : Int) ∈ scheduledTimes sf ssa ∧
    (minsOfDay ssa % (goAtoi sf).toNat = 0 →
      (scheduledTimes sf ssa).length =
        (1440 + (goAtoi sf).toNat - 1) / (goAtoi sf).toNat) ∧
    ∀ cache : List (String × List Int),
      (scheduledTimesCached (scheduledTimesCached cache sf ssa).1 sf ssa).2 =
        (scheduledTimesCached cache sf ssa).2 := by
  obtain ⟨h1, h2, h3, _⟩ := scheduledTimes_sorted_mem sf ssa hf hb hs
  refine ⟨h1, h2, h3, scheduledTimes_length_aligned sf ssa hf hb hs, ?_⟩
  intro cache
  unfold scheduledTimesCached
  cases hlook : cache.lookup (sf ++ "-" ++ ssa) with
  | some v => simp [hlook]
  | none => simp [hlook, List.lookup_cons]

theorem claim_C5_witness :
    1 ≤ goAtoi "180" ∧ goAtoi "180" ≤ 2 ^ 63 - 1440 ∧ minsOfDay "12:00" < 1440 ∧
    (minsOfDay "12:00" : Int) ∈ scheduledTimes "180" "12:00" :=
  ⟨by decide, by decide, by decide,
    (claim_C5_scheduledTimes "180" "12:00" (by decide) (by decide)
      (by decide)).2.2.1⟩

/-- C9 counterexample: the claim says every non-positive parsed frequency
diverges, but the negative frequency -5 terminates: the wrapping int64
accumulator eventually wraps past the bounds and both loops break, so some
fuel suffices. -/
theorem claim_C9_counterexample :
    goAtoi "-5" = -5 ∧
    ∃ fuel, (scheduledTimesWithFuel fuel "-5" "13:00").isSome :=
  ⟨by decide,
    scheduledTimesWithFuel_isSome "-5" "13:00" (by decide) (by decide) (by decide)⟩

/-- C9 (amended): on a cache miss, `scheduledTimes` terminates iff the
discarded-error `strconv.Atoi` of `syncFrequency` is neither 0 nor MinInt64:
for a frequency string that fails to parse (such as `""` or `"abc"`, which
leave the zero value) or parses to 0 or -2^63 the forward loop's wrapped
accumulator never reaches 1440 and the call diverges (no fuel suffices); for
every other parsed value, including negatives, wraparound eventually breaks
both loops. -/
theorem claim_C9_scheduledTimes_termination (sf ssa : String)
    (hs : minsOfDay ssa < 1440) :
    ((∃ fuel, (scheduledTimesWithFuel fuel sf ssa).isSome) ↔
      (goAtoi sf ≠ 0 ∧ goAtoi sf ≠ -(2 ^ 63))) ∧
    goAtoi "" = 0 ∧ goAtoi "abc" = 0 := by
  refine ⟨⟨?_, fun h => scheduledTimesWithFuel_isSome sf ssa hs h.1 h.2⟩,
    by decide, by decide⟩
  rintro ⟨fuel, hsome⟩
  refine ⟨fun h0 => ?_, fun hm => ?_⟩
  · have hnone := fwdLoop_none_of_zero (minsOfDay ssa) (Int.natCast_nonneg _)
      (by exact_mod_cast hs) fuel 1
    rw [← h0] at hnone
    simp only [scheduledTimesWithFuel, hnone] at hsome
    simp at hsome
  · have hnone := fwdLoop_none_of_minInt (minsOfDay ssa) (Int.natCast_nonneg _)
      (by exact_mod_cast hs) fuel 1
    rw [← hm] at hnone
    simp only [scheduledTimesWithFuel, hnone] at hsome
    simp at hsome

theorem claim_C9_witness :
    minsOfDay "13:00" < 1440 ∧
    (∃ fuel, (scheduledTimesWithFuel fuel "180" "13:00").isSome) :=
  ⟨by decide,
    (claim_C9_scheduledTimes_termination "180" "13:00" (by decide)).1.mpr
      ⟨by decide, by decide⟩⟩

/-! ## Claim theorems: MSSQL ProcessColumnValue -/

theorem stripSign_mem_dot : ∀ (l : List Char), '.' ∈ l → '.' ∈ (stripSign l).2 := by
  intro l hl
  cases l with
  | nil => simp at hl
  | cons c ds =>
    simp only [stripSign]
    split_ifs with hm hp
    · rcases List.mem_cons.1 hl with heq | h
      · exact absurd (heq.trans hm) (by decide)
      · exact h
    · rcases List.mem_cons.1 hl with heq | h
      · exact absurd (heq.trans hp) (by decide)
      · exact h
    · exact hl

theorem parseIntDigits_dot (neg : Bool) (ds : List Char) (h : '.' ∈ ds) :
    parseIntDigits neg ds = none := by
  have hdig : ds.all Char.isDigit = false :=
    List.all_eq_false.2 ⟨'.', h, by decide⟩
  simp [parseIntDigits, hdig]

/-- C6: the MSSQL `ProcessColumnValue` rejects every `int` input containing a
decimal point (for example `"1.01"`) and accepts `"1"` as the 64-bit integer
1; for `float` it rejects non-numeric input (`"test"`) and parses `"1.01"`
to the value 1.01; for `boolean` exactly `true`/`false` (case-insensitive)
are accepted; for `datetime` non-RFC 3339 input such as `"1"` is rejected
while an RFC 3339 timestamp parses. -/
theorem claim_C6_processColumnValue :
    (∀ s : String, '.' ∈ s.data → processColumnValue s "int" = none) ∧
    processColumnValue "1" "int" = some (ColumnValue.intVal 1) ∧
    processColumnValue "test" "float" = none ∧
    processColumnValue "1.01" "float" = some (ColumnValue.floatVal ((101 : Rat) / 100)) ∧
    (∀ s : String, (processColumnValue s "boolean").isSome ↔
      (lowerStr s = "true" ∨ lowerStr s = "false")) ∧
    processColumnValue "1" "datetime" = none ∧
    (processColumnValue "2020-01-01T00:00:00Z" "datetime").isSome = true := by
  refine ⟨?_, by decide, by decide, ?_, ?_, by decide, by decide⟩
  · intro s hdot
    have : goParseInt s = none := by
      unfold goParseInt
      exact parseIntDigits_dot _ _ (stripSign_mem_dot s.data hdot)
    simp [processColumnValue, this]
  · have h1 : processColumnValue "1.01" "float" =
        some (ColumnValue.floatVal ((digitsVal ['1'] : Rat) +
          (digitsVal ['0', '1'] : Rat) / ((10 : Rat) ^ (2 : Nat)))) := rfl
    have e1 : digitsVal ['1'] = 1 := by decide
    have e2 : digitsVal ['0', '1'] = 1 := by decide
    rw [h1, e1, e2]
    norm_num
  · intro s
    have hunf : processColumnValue s "boolean" =
        Option.map ColumnValue.boolVal (parseBool s) := by
      unfold processColumnValue
      rw [if_neg (by decide), if_neg (by decide), if_pos rfl]
    rw [hunf]
    unfold parseBool
    split_ifs with ht hf2
    · simp [ht]
    · simp [hf2]
    · simp [ht, hf2]

theorem claim_C6_witness : processColumnValue "1.01" "int" = none :=
  claim_C6_processColumnValue.1 "1.01" (by decide)

set_option maxRecDepth 40000 in
/-- C8: for the `string` logical type the MSSQL `ProcessColumnValue` depends
only on the first 512 characters of the input (MSSQL `nvarchar` maximum), an
800-character ASCII input yields its first 512 characters, every input whose
truncation contains a non-ASCII character is re-encoded to UTF-16LE bytes,
and `"tést"` yields the bytes 74 00 e9 00 73 00 74 00. -/
theorem claim_C8_processColumnValue_string :
    (∀ s t : String, strTake s 512 = strTake t 512 →
      processColumnValue s "string" = processColumnValue t "string") ∧
    (∀ s : String, isASCIIStr (strTake s 512) = false →
      processColumnValue s "string" =
        some (ColumnValue.bytesVal (utf16le (strTake s 512)))) ∧
    (∀ s : String, isASCIIStr (strTake s 512) = true →
      processColumnValue s "string" = some (ColumnValue.strVal (strTake s 512))) ∧
    processColumnValue (repeatString "test" 200) "string" =
      some (ColumnValue.strVal (repeatString "test" 128)) ∧
    processColumnValue "tést" "string" =
      some (ColumnValue.bytesVal [116, 0, 233, 0, 115, 0, 116, 0]) := by
  have hstr : ∀ s : String, processColumnValue s "string" =
      if isASCIIStr (strTake s 512) then some (ColumnValue.strVal (strTake s 512))
      else some (ColumnValue.bytesVal (utf16le (strTake s 512))) := by
    intro s
    unfold processColumnValue
    rw [if_neg (by decide), if_neg (by decide), if_neg (by decide), if_neg (by decide),
      if_pos rfl]
  refine ⟨?_, ?_, ?_, by decide, by decide⟩
  · intro s t h
    rw [hstr, hstr, h]
  · intro s h
    rw [hstr, h]
    simp
  · intro s h
    rw [hstr, h]
    simp

theorem claim_C8_witness :
    processColumnValue "tést" "string" =
      some (ColumnValue.bytesVal (utf16le (strTake "tést" 512))) :=
  claim_C8_processColumnValue_string.2.1 "tést" (by decide)

/-! ## Claim theorems: LoadTable merge idempotence -/

theorem loadTable_foldl_all_new :
    ∀ (staged tbl : List EventRow) (ins upd : Int),
      (staged.map (fun r => r.id)).Nodup →
      (∀ r ∈ staged, ∀ p ∈ tbl, p.id ≠ r.id) →
      staged.foldl loadTableStep (tbl, ⟨ins, upd⟩) =
        (tbl ++ staged, ⟨ins + staged.length, upd⟩) := by
  intro staged
  induction staged with
  | nil => intro tbl ins upd _ _; simp
  | cons r rest ih =>
    intro tbl ins upd hnd hnew
    rw [List.foldl_cons]
    have hany : tbl.any (fun p => p.id == r.id) = false := by
      rw [List.any_eq_false]
      intro p hp
      exact fun hb => hnew r (List.mem_cons_self _ _) p hp (by simpa using hb)
    have hstep : loadTableStep (tbl, ⟨ins, upd⟩) r = (tbl ++ [r], ⟨ins + 1, upd⟩) := by
      simp [loadTableStep, hany]
    rw [hstep]
    have hnd' : (rest.map (fun r => r.id)).Nodup := by
      simp only [List.map_cons, List.nodup_cons] at hnd
      exact hnd.2
    have hrid : r.id ∉ rest.map (fun r => r.id) := by
      simp only [List.map_cons, List.nodup_cons] at hnd
      exact hnd.1
    have hnew' : ∀ r' ∈ rest, ∀ p ∈ tbl ++ [r], p.id ≠ r'.id := by
      intro r' hr' p hp
      rcases List.mem_append.1 hp with hp' | hp'
      · exact hnew r' (List.mem_cons_of_mem _ hr') p hp'
      · rcases List.mem_singleton.1 hp' with rfl
        intro hcontra
        exact hrid (List.mem_map.2 ⟨r', hr', hcontra.symm⟩)
    rw [ih (tbl ++ [r]) (ins + 1) upd hnd' hnew']
    rw [Prod.mk.injEq]
    constructor
    · simp
    · rw [LoadTableStat.mk.injEq]
      constructor
      · simp only [List.length_cons]
        push_cast
        ring
      · rfl

theorem loadTable_foldl_all_match :
    ∀ (staged tbl : List EventRow) (ins upd : Int),
      (∀ r ∈ staged, r ∈ tbl ∧ ∀ p ∈ tbl, p.id = r.id → p = r) →
      staged.foldl loadTableStep (tbl, ⟨ins, upd⟩) = (tbl, ⟨ins, upd + staged.length⟩) := by
  intro staged
  induction staged with
  | nil => intro tbl ins upd _; simp
  | cons r rest ih =>
    intro tbl ins upd hall
    rw [List.foldl_cons]
    obtain ⟨hrmem, hruniq⟩ := hall r (List.mem_cons_self _ _)
    have hany : tbl.any (fun p => p.id == r.id) = true :=
      List.any_eq_true.2 ⟨r, hrmem, by simp⟩
    have hmap : tbl.map (fun p => if p.id = r.id then r else p) = tbl := by
      have hcg : ∀ p ∈ tbl, (if p.id = r.id then r else p) = p := by
        intro p hp
        by_cases hpr : p.id = r.id
        · rw [if_pos hpr]
          exact (hruniq p hp hpr).symm
        · rw [if_neg hpr]
      rw [List.map_congr_left hcg]
      exact List.map_id _
    have hstep : loadTableStep (tbl, ⟨ins, upd⟩) r = (tbl, ⟨ins, upd + 1⟩) := by
      simp [loadTableStep, hany, hmap]
    rw [hstep, ih tbl ins (upd + 1) (fun r' hr' => hall r' (List.mem_cons_of_mem _ hr'))]
    rw [Prod.mk.injEq]
    refine ⟨rfl, ?_⟩
    rw [LoadTableStat.mk.injEq]
    refine ⟨rfl, ?_⟩
    simp only [List.length_cons]
    push_cast
    ring

/-- C7: running the modelled `LoadTable` merge twice over the same 14-row
load-file range (distinct `id`s, none already present) inserts 14 rows and
updates none on the first run, inserts none and updates 14 on the second,
and leaves the warehouse table contents identical after both runs. -/
theorem claim_C7_loadTable_dedup (staged t0 : List EventRow)
    (hnd : (staged.map (fun r => r.id)).Nodup)
    (hnew : ∀ r ∈ staged, ∀ p ∈ t0, p.id ≠ r.id)
    (hlen : staged.length = 14) :
    (loadTableRun t0 staged).2 = ⟨14, 0⟩ ∧
    (loadTableRun (loadTableRun t0 staged).1 staged).2 = ⟨0, 14⟩ ∧
    (loadTableRun (loadTableRun t0 staged).1 staged).1 = (loadTableRun t0 staged).1 := by
  have h1 : loadTableRun t0 staged = (t0 ++ staged, ⟨(0 : Int) + staged.length, 0⟩) := by
    unfold loadTableRun
    exact loadTable_foldl_all_new staged t0 0 0 hnd hnew
  have hall : ∀ r ∈ staged, r ∈ t0 ++ staged ∧
      ∀ p ∈ t0 ++ staged, p.id = r.id → p = r := by
    intro r hr
    refine ⟨List.mem_append_right _ hr, ?_⟩
    intro p hp hpid
    rcases List.mem_append.1 hp with hp' | hp'
    · exact absurd hpid (hnew r hr p hp')
    · exact List.inj_on_of_nodup_map hnd hp' hr hpid
  have h2 : loadTableRun (t0 ++ staged) staged =
      (t0 ++ staged, ⟨0, (0 : Int) + staged.length⟩) := by
    unfold loadTableRun
    exact loadTable_foldl_all_match staged (t0 ++ staged) 0 0 hall
  rw [h1]
  simp only
  rw [h2]
  simp [hlen]

theorem claim_C7_witness :
    ((sampleStaged.map (fun r => r.id)).Nodup ∧ sampleStaged.length = 14) ∧
    (loadTableRun [] sampleStaged).2 = ⟨14, 0⟩ ∧
    (loadTableRun (loadTableRun [] sampleStaged).1 sampleStaged).2 = ⟨0, 14⟩ ∧
    (loadTableRun (loadTableRun [] sampleStaged).1 sampleStaged).1 =
      (loadTableRun [] sampleStaged).1 :=
  ⟨⟨by decide, by decide⟩,
    claim_C7_loadTable_dedup sampleStaged [] (by decide) (by simp) (by decide)⟩

/-! ## Claim theorems: GCS object-name slicing -/

/-- C10: `GetObjectNameFromLocation` slices the location after the byte
length of `https://storage.googleapis.com/<bucket>/` without checking that
the prefix matches (any sufficiently long location succeeds — also one that
is 40 `X`s), and every shorter location hits an out-of-range slice (a panic,
modelled as `none`), so the function is total only under that length
precondition. -/
theorem claim_C10_getObjectNameFromLocation (bucket location : String) :
    ((strBytes ("https://storage.googleapis.com/" ++ bucket ++ "/")).length ≤
        (strBytes location).length →
      getObjectNameFromLocation bucket location =
        some ((strBytes location).drop
          (strBytes ("https://storage.googleapis.com/" ++ bucket ++ "/")).length)) ∧
    ((strBytes location).length <
        (strBytes ("https://storage.googleapis.com/" ++ bucket ++ "/")).length →
      getObjectNameFromLocation bucket location = none) ∧
    getObjectNameFromLocation "bkt" (String.mk (List.replicate 40 'X')) =
      some (List.replicate 5 88) := by
  refine ⟨?_, ?_, by decide⟩
  · intro h
    simp only [getObjectNameFromLocation]
    rw [if_pos h]
  · intro h
    simp only [getObjectNameFromLocation]
    rw [if_neg (by omega)]

theorem claim_C10_witness :
    getObjectNameFromLocation "bkt" "short" = none :=
  (claim_C10_getObjectNameFromLocation "bkt" "short").2.1 (by decide)

end RudderServer
